import Mathlib

/-!
# Verification of the product-sync generator (`scripts/sync-products.py`)

A shallow embedding of the pure transformation logic of the sync script:
category classification, call-to-action selection, price formatting,
related-item selection, JSON-LD image arity, marker-based HTML injection,
and the page-reconciliation file-system pass.  Python strings are embedded
as Lean `String`/`List Char`; JSON dictionaries with optional keys become
structures with `Option` fields, `dict.get(k, d)` becoming `Option.getD`;
file-system effects become explicit state passing over a small entry model;
fallible code returns `Option`.
-/

namespace SyncProducts

set_option maxRecDepth 10000

/-! ## String utilities (Python `str` operations used by the script) -/

/-- Python `str.lower` on the ASCII range (the tags and titles compared by the
script are matched against ASCII constants; `Char.toLower` lowercases exactly
the ASCII uppercase letters). -/
def pyLower (s : String) : String := ⟨s.data.map Char.toLower⟩

/-- Does the character list start with `pat`? (`startsWithL pat s`). -/
def startsWithL : List Char → List Char → Bool
  | [], _ => true
  | _ :: _, [] => false
  | p :: ps, c :: cs => p == c && startsWithL ps cs

/-- Python substring test `pat in s` on character lists. -/
def hasSub (pat : List Char) : List Char → Bool
  | [] => pat.isEmpty
  | c :: cs => startsWithL pat (c :: cs) || hasSub pat cs

/-- Python `s.index(pat)`: index of the first occurrence of `pat` in `s`,
`none` when there is no occurrence. -/
def strIndex (pat : List Char) : List Char → Option Nat
  | [] => if pat.isEmpty then some 0 else none
  | c :: cs =>
    if startsWithL pat (c :: cs) then some 0
    else (strIndex pat cs).map (· + 1)

/-- One character of Python `html.escape` (with `quote=True`), as used by the
script's `escape` import. -/
def escapeChar (c : Char) : List Char :=
  if c = '&' then "&amp;".data
  else if c = '<' then "&lt;".data
  else if c = '>' then "&gt;".data
  else if c = '"' then "&quot;".data
  else if c = '\'' then "&#x27;".data
  else [c]

/-- Python `html.escape(s, quote=True)` (the `escape` used throughout the
script). Replacing `&` first and the other characters afterwards is the same
as mapping each original character independently, since replacements are only
ever applied to original characters. -/
def escape (s : String) : String := ⟨s.data.flatMap escapeChar⟩

/-! ## Data model: one Shopify catalog record

Raw records are JSON dictionaries; the script reads every field through
`dict.get` with a default, so each field is optional here.  Only the fields
the verified functions read are modelled. -/

structure Money where
  amount : Option String
  currencyCode : Option String
deriving DecidableEq, Repr

structure PriceRange where
  minVariantPrice : Option Money
  maxVariantPrice : Option Money
deriving DecidableEq, Repr

structure ProductImage where
  url : Option String
  altText : Option String
deriving DecidableEq, Repr

structure Variant where
  id : Option String
  title : Option String
  availableForSale : Option Bool
deriving DecidableEq, Repr

/-- The `images`/`variants` fields hold a connection object `{ nodes: [...] }`. -/
structure ImageConn where
  nodes : Option (List ProductImage)
deriving DecidableEq, Repr

structure VariantConn where
  nodes : Option (List Variant)
deriving DecidableEq, Repr

structure Product where
  id : Option String
  handle : Option String
  title : Option String
  tags : Option (List String)
  availableForSale : Option Bool
  priceRange : Option PriceRange
  featuredImage : Option ProductImage
  images : Option ImageConn
  variants : Option VariantConn
deriving DecidableEq, Repr

/-- `SHOPIFY_DOMAIN`: the module-level domain configuration (environment
variable with this literal default in the script). -/
def SHOPIFY_DOMAIN : String := "dbx3hf-qe.myshopify.com"

/-! ## Catalog normalizer -/

/-- `tags_lower`: the lowercased tag list,
`[t.lower() for t in product.get('tags', [])]`. -/
def tags_lower (p : Product) : List String := (p.tags.getD []).map pyLower

/-- `is_custom_product` (sync-products.py lines 129-145): tag
`"custom photo magnets"` (case-insensitive) first, else the legacy fallback
`"custom photo"` substring of the lowercased title.  `dict.get` defaults make
this total on records missing `tags` or `title`. -/
def is_custom_product (p : Product) : Bool :=
  if (tags_lower p).contains "custom photo magnets" then true
  else hasSub "custom photo".data (pyLower (p.title.getD "")).data

/-- `get_category` (lines 195-199). -/
def get_category (p : Product) : String :=
  if is_custom_product p then "custom" else "premade"

/-- The card's `data-category` filter attribute (line 232 of
`build_product_card`): present only on the shop page, and always carrying
`get_category`. -/
def cat_attr (p : Product) (is_shop_page : Bool) : String :=
  if is_shop_page then " data-category=\"" ++ get_category p ++ "\"" else ""

/-- `get_first_variant_id` (lines 202-207). -/
def get_first_variant_id (p : Product) : String :=
  match ((p.variants.map VariantConn.nodes).getD none).getD [] with
  | [] => ""
  | v :: _ => v.id.getD ""

/-- Whether a URL already has a query string (`'?' in url`). -/
def hasQuery (u : String) : Bool := u.data.contains '?'

/-- `get_image_url` (lines 175-184): featured image URL with a width query
parameter appended with `&` or `?`, and the empty string when there is no
image (or its URL is missing or empty — Python falsiness of `''`). -/
def get_image_url (p : Product) (width : Nat) : String :=
  match p.featuredImage with
  | none => ""
  | some img =>
    match img.url with
    | none => ""
    | some u =>
      if u = "" then ""
      else if hasQuery u then u ++ "&width=" ++ toString width
      else u ++ "?width=" ++ toString width

/-- The item's availability flag, `product.get('availableForSale', True)`. -/
def availableOf (p : Product) : Bool := p.availableForSale.getD true

/-! ## Call-to-action selection

The card CTA (`build_product_card`, lines 238-245) and the detail-page CTA
(`build_product_page_html`, lines 351-358): custom products always link out to
the Shopify-hosted page; otherwise unavailable products get a disabled
"Sold Out" button; otherwise an enabled "Add to Cart" button carrying the
first variant id. -/

/-- The vendor-hosted product URL,
`f'https://{SHOPIFY_DOMAIN}/products/{handle}'`. -/
def shopify_url (p : Product) : String :=
  "https://" ++ SHOPIFY_DOMAIN ++ "/products/" ++ p.handle.getD ""

/-- Card CTA, custom branch (line 241). -/
def card_cta_custom (p : Product) : String :=
  "<a href=\"" ++ escape (shopify_url p) ++
    "\" class=\"product-card-btn\" target=\"_blank\" rel=\"noopener\">View &amp; Customize →</a>"

/-- Card CTA, sold-out branch (line 243). -/
def card_cta_soldout (p : Product) : String :=
  "<button class=\"product-card-btn\" data-variant-id=\"" ++
    escape (get_first_variant_id p) ++
    "\" data-original-text=\"Add to Cart\" aria-label=\"Add " ++
    escape (p.title.getD "") ++ " to cart\" disabled>Sold Out</button>"

/-- Card CTA, add-to-cart branch (line 245). -/
def card_cta_add (p : Product) : String :=
  "<button class=\"product-card-btn\" data-variant-id=\"" ++
    escape (get_first_variant_id p) ++
    "\" data-original-text=\"Add to Cart\" aria-label=\"Add " ++
    escape (p.title.getD "") ++ " to cart\">Add to Cart</button>"

/-- The card CTA decision (lines 238-245). -/
def card_cta (p : Product) : String :=
  if is_custom_product p then card_cta_custom p
  else if ¬ availableOf p then card_cta_soldout p
  else card_cta_add p

/-- Detail-page CTA, custom branch (line 354). -/
def pdp_cta_custom (p : Product) : String :=
  "<a href=\"" ++ escape (shopify_url p) ++
    "\" class=\"btn btn-primary btn-lg pdp-cta\" target=\"_blank\" rel=\"noopener\">Customize &amp; Order →</a>"

/-- Detail-page CTA, sold-out branch (line 356). -/
def pdp_cta_soldout (p : Product) : String :=
  "<button class=\"btn btn-primary btn-lg pdp-cta\" data-variant-id=\"" ++
    escape (get_first_variant_id p) ++
    "\" data-original-text=\"Add to Cart\" disabled>Sold Out</button>"

/-- Detail-page CTA, add-to-cart branch (line 358). -/
def pdp_cta_add (p : Product) : String :=
  "<button class=\"btn btn-primary btn-lg pdp-cta\" data-variant-id=\"" ++
    escape (get_first_variant_id p) ++
    "\" data-original-text=\"Add to Cart\" aria-label=\"Add " ++
    escape (p.title.getD "") ++ " to cart\">Add to Cart</button>"

/-- The detail-page CTA decision (lines 351-358). -/
def pdp_cta (p : Product) : String :=
  if is_custom_product p then pdp_cta_custom p
  else if ¬ availableOf p then pdp_cta_soldout p
  else pdp_cta_add p

/-! ## Related-item selection (`build_product_page_html`, lines 361-366) -/

/-- `product_id = product.get('id', '')`; the exclusion test the two list
comprehensions share is `p.get('id') != product_id`, where a record missing
`id` yields Python `None`, which is unequal to any string. -/
def idFilter (item p : Product) : Bool :=
  match p.id with
  | some v => v ≠ item.id.getD ""
  | none => true

/-- The first comprehension:
`[p for p in all_products if p.get('id') != product_id and get_category(p) == category]`. -/
def sameCategoryPeers (item : Product) (all : List Product) : List Product :=
  all.filter fun p => idFilter item p && (get_category p == get_category item)

/-- The backfill pool:
`[p for p in all_products if p.get('id') != product_id and p not in related]`
(`p not in related` is structural record equality). -/
def backfillPool (item : Product) (all : List Product) : List Product :=
  all.filter fun p => idFilter item p && !(sameCategoryPeers item all).contains p

/-- `related` (lines 361-366): same-category items first; when fewer than 4,
extended with `other[:4 - len(related)]`; finally truncated to 4. -/
def relatedFor (item : Product) (all : List Product) : List Product :=
  let related := sameCategoryPeers item all
  let related' :=
    if related.length < 4 then
      related ++ (backfillPool item all).take (4 - related.length)
    else related
  related'.take 4

/-! ## Price formatting (`format_price`, lines 160-172)

The script parses the amount strings with Python `float` (IEEE-754 binary64)
and renders `f'${min_price:.2f}'`.  Both steps are embedded exactly over `ℚ`:
`floatOfRat` rounds a rational to the nearest binary64 value (53-bit
significand, round-half-to-even — normal range only, which covers every money
amount), and the `:.2f` formatter correctly rounds the double's exact value to
two decimals, again half-to-even. -/

/-- Fuelled ⌊log₂⌋ on naturals (`natLog2F fuel n`; fuel `n` suffices). -/
def natLog2F : Nat → Nat → Nat
  | 0, _ => 0
  | f + 1, n => if 2 ≤ n then natLog2F f (n / 2) + 1 else 0

/-- ⌊log₂ n⌋ for `1 ≤ n` (and 0 at 0). -/
def natLog2 (n : Nat) : Nat := natLog2F n n

/-- Round the fraction `n / d` (with `d ≠ 0`) to the nearest natural number,
ties to even. -/
def rhalfEvenFrac (n d : ℕ) : ℕ :=
  if 2 * (n % d) < d then n / d
  else if d < 2 * (n % d) then n / d + 1
  else if n / d % 2 = 0 then n / d else n / d + 1

/-- The binary exponent of the positive fraction `a / b`:
`2 ^ fexp a b ≤ a / b < 2 ^ (fexp a b + 1)` whenever `2 ^ (-100) ≤ a / b`,
computed from a scaled integer part. -/
def fexp (a b : ℕ) : ℤ := (natLog2 (a * 2 ^ 200 / b) : ℤ) - 200

/-- The nearest binary64 value of the positive fraction `a / b`, as a
significand/exponent pair `(m, e)` denoting `m * 2 ^ (e - 52)` — normal,
finite range, round-half-to-even, as IEEE-754 and hence Python `float`
prescribe for every money amount that occurs. -/
def floatBits (a b : ℕ) : ℕ × ℤ :=
  if 52 - fexp a b < 0 then
    ((fun m => if m = 2 ^ 53 then (2 ^ 52, fexp a b + 1) else (m, fexp a b))
      (rhalfEvenFrac a (b * 2 ^ (fexp a b - 52).toNat)))
  else
    ((fun m => if m = 2 ^ 53 then (2 ^ 52, fexp a b + 1) else (m, fexp a b))
      (rhalfEvenFrac (a * 2 ^ (52 - fexp a b).toNat) b))

/-- The exact rational value of a significand/exponent pair. -/
def floatVal (f : ℕ × ℤ) : ℚ := (f.1 : ℚ) * 2 ^ (f.2 - 52)

/-- Split a character list at its first `'.'`. -/
def splitDot : List Char → List Char × Option (List Char)
  | [] => ([], none)
  | c :: cs =>
    if c = '.' then ([], some cs)
    else ((splitDot cs).1.cons c, (splitDot cs).2)

/-- All characters are ASCII digits. -/
def allDigits (l : List Char) : Bool := l.all fun c => '0' ≤ c && c ≤ '9'

/-- Value of a digit string. -/
def digitsToNat (l : List Char) : Nat := l.foldl (fun a c => 10 * a + (c.toNat - 48)) 0

/-- The exact decimal value denoted by an amount string, as a fraction
`(numerator, positive power-of-ten denominator)`; `none` when the string is
not a plain decimal literal (Python `float` would raise there). -/
def decParts? (s : String) : Option (ℕ × ℕ) :=
  match splitDot s.data with
  | (ip, none) =>
    if allDigits ip ∧ ip ≠ [] then some (digitsToNat ip, 1) else none
  | (ip, some fp) =>
    if allDigits ip ∧ allDigits fp ∧ (ip ≠ [] ∨ fp ≠ []) then
      some (digitsToNat ip * 10 ^ fp.length + digitsToNat fp, 10 ^ fp.length)
    else none

/-- The value of Python `float(s)` for a decimal amount string, as a
significand/exponent pair; zero is `(0, 0)`, and `none` models the
`ValueError` raised on a non-numeric string. -/
def pyFloat? (s : String) : Option (ℕ × ℤ) :=
  match decParts? s with
  | none => none
  | some (a, b) => if a = 0 then some (0, 0) else some (floatBits a b)

/-- The cent count displayed by `f'{x:.2f}'` for the nonnegative double `x`:
the double's exact value times 100, correctly rounded, ties to even. -/
def floatCents (f : ℕ × ℤ) : ℕ :=
  if f.2 - 52 < 0 then rhalfEvenFrac (100 * f.1) (2 ^ (52 - f.2).toNat)
  else 100 * f.1 * 2 ^ (f.2 - 52).toNat

/-- Two-digit zero-padded rendering of `n < 100`. -/
def twoDigits (n : Nat) : String := (if n < 10 then "0" else "") ++ toString n

/-- Render a cent count as the digits of `f'{x:.2f}'`. -/
def fmtCents (c : ℕ) : String := toString (c / 100) ++ "." ++ twoDigits (c % 100)

/-- `product.get('priceRange', {}).get('minVariantPrice', {}).get('amount', '0')`. -/
def min_amount_str (p : Product) : String :=
  ((p.priceRange.bind PriceRange.minVariantPrice).bind Money.amount).getD "0"

/-- `product.get('priceRange', {}).get('maxVariantPrice', {}).get('amount', '0')`. -/
def max_amount_str (p : Product) : String :=
  ((p.priceRange.bind PriceRange.maxVariantPrice).bind Money.amount).getD "0"

/-- `format_price` (lines 160-172): `float` both amounts; `'Free'` when the
minimum is zero; otherwise `'$'` plus the two-decimal minimum, preceded by the
`From` span when the two floats differ (floats compare equal exactly when
their normal significand/exponent pairs coincide).  `none` models the
`ValueError` Python `float` raises on a non-numeric amount string. -/
def format_price (p : Product) : Option String :=
  match pyFloat? (min_amount_str p), pyFloat? (max_amount_str p) with
  | some fmin, some fmax =>
    if fmin.1 = 0 then some "Free"
    else if fmin ≠ fmax then
      some ("<span class=\"from\">From </span>" ++
        ("$" ++ fmtCents (floatCents fmin)))
    else some ("$" ++ fmtCents (floatCents fmin))
  | _, _ => none

/-- The price display the specification's words prescribe, for comparison:
identical to `format_price` except that the amounts are kept as exact decimal
values (never passed through a binary float), compared exactly, and rendered
with the same correctly-rounded two-decimal formatting. -/
def format_price_decimalExact (p : Product) : Option String :=
  match decParts? (min_amount_str p), decParts? (max_amount_str p) with
  | some mn, some mx =>
    if mn.1 = 0 then some "Free"
    else if mn.1 * mx.2 ≠ mx.1 * mn.2 then
      some ("<span class=\"from\">From </span>" ++
        ("$" ++ fmtCents (rhalfEvenFrac (100 * mn.1) mn.2)))
    else some ("$" ++ fmtCents (rhalfEvenFrac (100 * mn.1) mn.2))
  | _, _ => none

/-! ## JSON-LD image field (claim about structured data arity)

Only the `image` member's shape matters, so it is embedded as its own small
value type: a scalar URL or an array of URLs. -/

inductive JVal where
  | jstr : String → JVal
  | jarr : List String → JVal
deriving DecidableEq, Repr

/-- The product's image nodes, `product.get('images', {}).get('nodes', [])`. -/
def imageNodes (p : Product) : List ProductImage :=
  ((p.images.map ImageConn.nodes).getD none).getD []

/-- `jsonld_images` (lines 386-389): the truthy-URL images, each given a
`width=1200` query parameter. -/
def jsonld_images (p : Product) : List String :=
  (imageNodes p).filterMap fun img =>
    match img.url with
    | none => none
    | some u =>
      if u = "" then none
      else if hasQuery u then some (u ++ "&width=1200")
      else some (u ++ "?width=1200")

/-- The `image` member of the detail page's single-product JSON-LD
(line 395): the array when more than one image, else the sole URL, else the
empty string. -/
def product_jsonld_image (p : Product) : JVal :=
  if (jsonld_images p).length > 1 then .jarr (jsonld_images p)
  else .jstr ((jsonld_images p).headD "")

/-- The `image` member of one item of the list-form JSON-LD built by
`build_jsonld_products` (line 695): always the scalar `get_image_url(p, 1200)`. -/
def jsonld_list_image (p : Product) : JVal :=
  .jstr (get_image_url p 1200)

/-! ## Marker injection (`inject_into_html`, lines 726-743)

The host document is a character list; reading and writing the file are the
caller's business, so the function maps the document to the written document
together with the boolean the script returns. -/

/-- `inject_into_html` (lines 726-743): when both markers occur, splice
`html[:index(start)+len(start)] + '\n' + content + '\n        ' + html[index(end):]`
and report `True`; otherwise report `False` and leave the document alone. -/
def inject_into_html (html start_marker end_marker new_content : List Char) :
    Bool × List Char :=
  match strIndex start_marker html, strIndex end_marker html with
  | some s, some e =>
    (true,
      html.take (s + start_marker.length) ++ ('\n' :: new_content) ++
        ('\n' :: "        ".data) ++ html.drop e)
  | _, _ => (false, html)

/-- The scanning loop of Python `str.replace` for a nonempty pattern, fuelled
by the document length (each step consumes at least one character, so fuel
`s.length` is enough). -/
def pyReplaceF (pat rep : List Char) : Nat → List Char → List Char
  | 0, s => s
  | _ + 1, [] => []
  | f + 1, c :: cs =>
    if pat ≠ [] ∧ startsWithL pat (c :: cs) then
      rep ++ pyReplaceF pat rep f ((c :: cs).drop pat.length)
    else c :: pyReplaceF pat rep f cs

/-- Python `str.replace(pat, rep)` for a nonempty pattern: replace every
non-overlapping occurrence, scanning left to right. -/
def pyReplace (pat rep s : List Char) : List Char := pyReplaceF pat rep s.length s

/-- The metadata start marker, `'<!-- PRODUCTS_JSONLD_START -->'`. -/
def PRODUCTS_JSONLD_START : List Char := "<!-- PRODUCTS_JSONLD_START -->".data

/-- The metadata end marker, `'<!-- PRODUCTS_JSONLD_END -->'`. -/
def PRODUCTS_JSONLD_END : List Char := "<!-- PRODUCTS_JSONLD_END -->".data

/-- The synthesized block `f'  {marker_start}\n  {new_jsonld_str}\n  {marker_end}\n'`. -/
def jsonldInsertion (new_jsonld_str : List Char) : List Char :=
  "  ".data ++ PRODUCTS_JSONLD_START ++ "\n  ".data ++ new_jsonld_str ++
    "\n  ".data ++ PRODUCTS_JSONLD_END ++ "\n".data

/-- `inject_jsonld` (lines 746-767): when the start marker is present, replace
from it through the end marker (raising — `none` — when the end marker is
missing, as `html.index` then raises `ValueError`); when absent, run
`html.replace('</head>', insertion + '</head>')`. -/
def inject_jsonld (html new_jsonld_str : List Char) : Option (List Char) :=
  match strIndex PRODUCTS_JSONLD_START html with
  | some si =>
    match strIndex PRODUCTS_JSONLD_END html with
    | some ei =>
      some (html.take si ++ PRODUCTS_JSONLD_START ++ "\n  ".data ++
        new_jsonld_str ++ "\n  ".data ++ PRODUCTS_JSONLD_END ++
        html.drop (ei + PRODUCTS_JSONLD_END.length))
    | none => none
  | none =>
    some (pyReplace "</head>".data
      (jsonldInsertion new_jsonld_str ++ "</head>".data) html)

/-! ## Page reconciliation (`generate_product_pages`, lines 770-816)

The `shop/` directory is a list of named entries: plain files (such as the
listing's own `index.html`) and subdirectories that may hold a detail page.
`os.makedirs(..., exist_ok=True)` fails only when the path exists as a
non-directory; writing the page stores content in the handle's directory; the
cleanup pass removes every directory that holds an `index.html` but matches no
current handle, counting the removals the script reports. -/

inductive FsEntry where
  | plainFile : String → FsEntry
  | dir : String → Option String → FsEntry
deriving DecidableEq, Repr

abbrev ShopDir := List FsEntry

/-- The entry is a non-directory named `n`. -/
def isFileNamed (n : String) : FsEntry → Bool
  | .plainFile m => m == n
  | .dir _ _ => false

/-- The entry is a directory named `n`. -/
def isDirNamed (n : String) : FsEntry → Bool
  | .dir m _ => m == n
  | .plainFile _ => false

/-- `os.makedirs(page_dir, exist_ok=True)` followed by writing `index.html`:
fails when `n` exists as a plain file, creates the directory when missing, and
unconditionally (re)writes the page. -/
def writePage (n content : String) (fs : ShopDir) : Option ShopDir :=
  if fs.any (isFileNamed n) then none
  else if fs.any (isDirNamed n) then
    some (fs.map fun e => if isDirNamed n e then .dir n (some content) else e)
  else some (fs ++ [.dir n (some content)])

/-- The generation loop (lines 779-794): products with an empty handle are
skipped, every other product's page is written, and the written pages are
counted. -/
def writePhase (render : Product → List Product → String) (all : List Product) :
    List Product → ShopDir → Option (ShopDir × Nat)
  | [], fs => some (fs, 0)
  | p :: ps, fs =>
    if p.handle.getD "" = "" then writePhase render all ps fs
    else
      match writePage (p.handle.getD "") (render p all) fs with
      | none => none
      | some fs' => (writePhase render all ps fs').map fun r => (r.1, r.2 + 1)

/-- `current_handles`: the nonempty handles of the current catalog. -/
def handlesOf (ps : List Product) : List String :=
  (ps.map fun p => p.handle.getD "").filter (· ≠ "")

/-- A stale detail-page directory: it holds an `index.html` and matches no
current handle (lines 798-811). -/
def isStale (handles : List String) : FsEntry → Bool
  | .dir n (some _) => !handles.contains n
  | _ => false

/-- The cleanup pass: drop the stale directories, counting the removals. -/
def deletePhase (handles : List String) (fs : ShopDir) : ShopDir × Nat :=
  (fs.filter fun e => !isStale handles e, (fs.filter (isStale handles)).length)

/-- `generate_product_pages` (lines 770-816) over the `shop/` state: write all
pages (the script renders each with `build_product_page_html`, a fixed pure
renderer, kept as the parameter `render` here), then delete stale directories;
the result carries the generated and removed counts the script prints, and
`none` models an uncaught `OSError`. -/
def generate_product_pages (render : Product → List Product → String)
    (products : List Product) (fs : ShopDir) : Option (ShopDir × Nat × Nat) :=
  match writePhase render products products fs with
  | none => none
  | some (fs', g) =>
    some ((deletePhase (handlesOf products) fs').1, g,
      (deletePhase (handlesOf products) fs').2)

/-- The detail page stored for handle `n` (content of `shop/<n>/index.html`). -/
def pageOf (fs : ShopDir) (n : String) : Option String :=
  match fs.find? (isDirNamed n) with
  | some (.dir _ c) => c
  | _ => none

/-! ## Sample catalog records used by witnesses and counterexamples -/

/-- A record carrying the designated custom tag, currently unavailable. -/
def sampleCustom : Product :=
  { id := some "gid://shopify/Product/1", handle := some "custom-photo-magnets",
    title := some "Magnet Set", tags := some ["Custom Photo Magnets"],
    availableForSale := some false,
    priceRange := some ⟨some ⟨some "19.99", some "USD"⟩, some ⟨some "29.99", some "USD"⟩⟩,
    featuredImage := some ⟨some "https://cdn.shopify.com/x.png", some "alt"⟩,
    images := some ⟨some [⟨some "https://cdn.shopify.com/x.png", some "alt"⟩]⟩,
    variants := some ⟨some [⟨some "gid://shopify/ProductVariant/11", some "Default", some true⟩]⟩ }

/-- An ordinary premade record, available. -/
def samplePremade : Product :=
  { id := some "gid://shopify/Product/2", handle := some "premade-set",
    title := some "Premade Set", tags := some ["New"],
    availableForSale := some true,
    priceRange := some ⟨some ⟨some "9.99", some "USD"⟩, some ⟨some "9.99", some "USD"⟩⟩,
    featuredImage := some ⟨some "https://cdn.shopify.com/y.png", none⟩,
    images := some ⟨some [⟨some "https://cdn.shopify.com/y.png", none⟩]⟩,
    variants := some ⟨some [⟨some "gid://shopify/ProductVariant/21", some "Default", some true⟩]⟩ }

/-- A record with no `id` key at all. -/
def sampleNoId : Product :=
  { id := none, handle := some "a", title := some "t", tags := some [],
    availableForSale := some true, priceRange := none,
    featuredImage := none, images := none, variants := none }

/-- A record with a featured image and two gallery images. -/
def sampleTwoImages : Product :=
  { id := some "gid://shopify/Product/3", handle := some "two-images",
    title := some "Two", tags := some [],
    availableForSale := some true,
    priceRange := some ⟨some ⟨some "5.00", some "USD"⟩, some ⟨some "5.00", some "USD"⟩⟩,
    featuredImage := some ⟨some "https://cdn.shopify.com/f.png", none⟩,
    images := some ⟨some [⟨some "https://cdn.shopify.com/1.png", none⟩,
      ⟨some "https://cdn.shopify.com/2.png", none⟩]⟩,
    variants := some ⟨some [⟨some "gid://shopify/ProductVariant/31", some "Default", some true⟩]⟩ }

/-- The content the write loop leaves for handle `n`: the page of the last
product in `ps` whose (nonempty) handle is `n`, when there is one. -/
def lastWrite (render : Product → List Product → String) (all : List Product) :
    List Product → String → Option String
  | [], _ => none
  | p :: ps, n =>
    match lastWrite render all ps n with
    | some c => some c
    | none =>
      if p.handle.getD "" ≠ "" ∧ p.handle.getD "" = n then some (render p all)
      else none

/-- A record whose price amount has three decimal digits. -/
def p155 : Product :=
  { id := some "gid://shopify/Product/9", handle := some "tiny",
    title := some "Tiny", tags := some [], availableForSale := some true,
    priceRange := some ⟨some ⟨some "0.155", some "USD"⟩,
      some ⟨some "0.155", some "USD"⟩⟩,
    featuredImage := none, images := none, variants := none }

/-! ## Facts about `startsWithL` and `strIndex` -/

theorem strIndex_nil_eq (pat : List Char) :
    strIndex pat [] = if pat.isEmpty then some 0 else none := rfl

theorem strIndex_cons_eq (pat : List Char) (c : Char) (cs : List Char) :
    strIndex pat (c :: cs) =
      if startsWithL pat (c :: cs) then some 0
      else (strIndex pat cs).map (· + 1) := rfl

theorem startsWithL_decomp {pat s : List Char} (h : startsWithL pat s = true) :
    s = pat ++ s.drop pat.length := by
  induction pat generalizing s with
  | nil => simp
  | cons p ps ih =>
    cases s with
    | nil => simp [startsWithL] at h
    | cons c cs =>
      simp only [startsWithL, Bool.and_eq_true, beq_iff_eq] at h
      obtain ⟨rfl, h2⟩ := h
      simpa using ih h2

theorem startsWithL_length {pat s : List Char} (h : startsWithL pat s = true) :
    pat.length ≤ s.length := by
  have := congrArg List.length (startsWithL_decomp h)
  simp only [List.length_append] at this
  omega

theorem strIndex_startsWith {pat s : List Char} {i : Nat}
    (h : strIndex pat s = some i) : startsWithL pat (s.drop i) = true := by
  induction s generalizing i with
  | nil =>
    rw [strIndex_nil_eq] at h
    by_cases hp : pat.isEmpty
    · rw [if_pos hp] at h
      cases h
      simp [List.isEmpty_iff.mp hp, startsWithL]
    · rw [if_neg hp] at h
      simp at h
  | cons c cs ih =>
    by_cases hw : startsWithL pat (c :: cs) = true
    · rw [strIndex_cons_eq, if_pos hw] at h
      cases h
      simpa using hw
    · rw [strIndex_cons_eq, if_neg hw] at h
      cases hm : strIndex pat cs with
      | none => rw [hm] at h; simp at h
      | some j =>
        rw [hm] at h
        simp only [Option.map_some', Option.some.injEq] at h
        subst h
        simpa using ih hm

theorem strIndex_le {pat s : List Char} {i : Nat}
    (h : strIndex pat s = some i) : i + pat.length ≤ s.length := by
  induction s generalizing i with
  | nil =>
    rw [strIndex_nil_eq] at h
    by_cases hp : pat.isEmpty
    · rw [if_pos hp] at h
      cases h
      simp [List.isEmpty_iff.mp hp]
    · rw [if_neg hp] at h
      simp at h
  | cons c cs ih =>
    by_cases hw : startsWithL pat (c :: cs) = true
    · rw [strIndex_cons_eq, if_pos hw] at h
      cases h
      simpa using startsWithL_length hw
    · rw [strIndex_cons_eq, if_neg hw] at h
      cases hm : strIndex pat cs with
      | none => rw [hm] at h; simp at h
      | some j =>
        rw [hm] at h
        simp only [Option.map_some', Option.some.injEq] at h
        subst h
        have := ih hm
        simp only [List.length_cons]
        omega

theorem strIndex_drop {pat s : List Char} {i : Nat}
    (h : strIndex pat s = some i) :
    s.drop i = pat ++ s.drop (i + pat.length) := by
  have h1 := startsWithL_decomp (strIndex_startsWith h)
  rw [h1, List.drop_drop]

theorem strIndex_decomp {pat s : List Char} {i : Nat}
    (h : strIndex pat s = some i) :
    s = s.take i ++ pat ++ s.drop (i + pat.length) := by
  conv_lhs => rw [← List.take_append_drop i s, strIndex_drop h]
  rw [List.append_assoc]

theorem strIndex_take {pat s : List Char} {i : Nat}
    (h : strIndex pat s = some i) :
    s.take (i + pat.length) = s.take i ++ pat := by
  rw [List.take_add, strIndex_drop h, List.take_left]

/-! ## Claims C6, C7, C10: fragment injection -/

/-- **C6** (corrected).  For a host document in which the start marker occurs
(first occurrence at `i`) and the end marker first occurs at `j`, at or after
the end of that start marker, `inject_into_html` reports success and replaces
exactly the region strictly between the two markers — but with the new
content padded by a leading newline and a trailing newline plus eight spaces,
not with the bare new content.  Every character outside that region, the
markers themselves included, is unchanged: the output is the input through
the end of the start marker, then the padded content, then the input from the
first end marker on. -/
theorem inject_into_html_replaces_between (html sm em c : List Char) (i j : Nat)
    (hs : strIndex sm html = some i) (he : strIndex em html = some j)
    (hord : i + sm.length ≤ j) :
    inject_into_html html sm em c =
      (true, html.take (i + sm.length) ++ ('\n' :: c) ++
        ('\n' :: "        ".data) ++ html.drop j)
    ∧ html = html.take (i + sm.length) ++ (html.take j).drop (i + sm.length) ++
        html.drop j
    ∧ html.take (i + sm.length) = html.take i ++ sm
    ∧ html.drop j = em ++ html.drop (j + em.length) := by
  have h1 : html.take (i + sm.length) ++ (html.take j).drop (i + sm.length) =
      html.take j := by
    conv_rhs => rw [← List.take_append_drop (i + sm.length) (html.take j)]
    rw [List.take_take, Nat.min_eq_left hord]
  refine ⟨?_, ?_, strIndex_take hs, strIndex_drop he⟩
  · simp [inject_into_html, hs, he]
  · rw [h1, List.take_append_drop]

/-- Witness for C6: injecting `"new"` between the markers of
`<!--START-->old<!--END-->` (start marker at 0, end marker at 15) replaces
`old` with the padded new content. -/
theorem inject_into_html_replaces_between_witness :
    (strIndex "<!--START-->".data "<!--START-->old<!--END-->".data = some 0
      ∧ strIndex "<!--END-->".data "<!--START-->old<!--END-->".data = some 15
      ∧ 0 + "<!--START-->".data.length ≤ 15)
    ∧ inject_into_html "<!--START-->old<!--END-->".data "<!--START-->".data
        "<!--END-->".data "new".data =
      (true, "<!--START-->old<!--END-->".data.take (0 + "<!--START-->".data.length) ++
        ('\n' :: "new".data) ++ ('\n' :: "        ".data) ++
        "<!--START-->old<!--END-->".data.drop 15) :=
  ⟨⟨by decide, by decide, by decide⟩,
    (inject_into_html_replaces_between "<!--START-->old<!--END-->".data
      "<!--START-->".data "<!--END-->".data "new".data 0 15
      (by decide) (by decide) (by decide)).1⟩

/-- Counterexample for C6 as stated: injecting `"new"` into
`<!--START-->old<!--END-->` does not replace `old` with the bare `new` — the
injected content is padded with a leading newline and a trailing newline plus
eight spaces of indentation. -/
theorem inject_into_html_padding_counterexample :
    inject_into_html "<!--START-->old<!--END-->".data "<!--START-->".data
        "<!--END-->".data "new".data ≠
      (true, "<!--START-->new<!--END-->".data)
    ∧ inject_into_html "<!--START-->old<!--END-->".data "<!--START-->".data
        "<!--END-->".data "new".data =
      (true, ("<!--START-->" ++ "\nnew\n        " ++ "<!--END-->").data) := by
  exact ⟨by decide, by decide⟩

/-- **C7** (confirmed).  When either marker is missing from the host document,
`inject_into_html` reports failure (returns `False`) and the document is left
byte-identical; the embedded function is total, so no exception escapes — the
injection is skipped rather than aborting the run. -/
theorem inject_into_html_missing_marker (html sm em c : List Char)
    (h : strIndex sm html = none ∨ strIndex em html = none) :
    inject_into_html html sm em c = (false, html) := by
  rcases h with h | h
  · simp [inject_into_html, h]
  · cases hs : strIndex sm html <;> simp [inject_into_html, hs, h]

/-- Witness for C7: a document containing neither marker is returned
unchanged with a `False` report. -/
theorem inject_into_html_missing_marker_witness :
    (strIndex "<!--START-->".data "<p>hello</p>".data = none
      ∨ strIndex "<!--END-->".data "<p>hello</p>".data = none)
    ∧ inject_into_html "<p>hello</p>".data "<!--START-->".data
        "<!--END-->".data "new".data = (false, "<p>hello</p>".data) :=
  ⟨Or.inl (by decide),
    inject_into_html_missing_marker "<p>hello</p>".data "<!--START-->".data
      "<!--END-->".data "new".data (Or.inl (by decide))⟩

/-- **C10** (confirmed).  When both markers occur but the first end-marker
occurrence `j` precedes the first start-marker occurrence `i`, the function
still reports success and writes the document's prefix through the end of the
start marker, the padded new content, then the suffix from the first end
marker — so the segment from the first end marker through the end of the
first start marker (`(html.take (i + sm.length)).drop j`) both ends the
prefix part and begins the suffix part, appearing twice in the output; no
ordering check is performed. -/
theorem inject_into_html_reversed_markers (html sm em c : List Char) (i j : Nat)
    (hs : strIndex sm html = some i) (he : strIndex em html = some j)
    (hji : j < i) :
    inject_into_html html sm em c =
      (true, html.take (i + sm.length) ++ ('\n' :: c) ++
        ('\n' :: "        ".data) ++ html.drop j)
    ∧ html.take (i + sm.length) =
        html.take j ++ (html.take (i + sm.length)).drop j
    ∧ html.drop j =
        (html.take (i + sm.length)).drop j ++ html.drop (i + sm.length) := by
  have hjx : j ≤ i + sm.length := by omega
  refine ⟨by simp [inject_into_html, hs, he], ?_, ?_⟩
  · conv_lhs => rw [← List.take_append_drop j (html.take (i + sm.length))]
    rw [List.take_take, Nat.min_eq_left hjx]
  · conv_lhs => rw [← List.take_append_drop (i + sm.length) html]
    rw [List.drop_append_eq_append_drop]
    have h0 : j - (html.take (i + sm.length)).length = 0 := by
      have := strIndex_le hs
      rw [List.length_take]
      omega
    rw [h0, List.drop_zero]

/-- Witness for C10: in `<!--END-->X<!--START-->Y` the end marker (index 0)
precedes the start marker (index 11); injection still succeeds and the text
from the end marker through the start marker appears twice in the output. -/
theorem inject_into_html_reversed_markers_witness :
    (strIndex "<!--START-->".data "<!--END-->X<!--START-->Y".data = some 11
      ∧ strIndex "<!--END-->".data "<!--END-->X<!--START-->Y".data = some 0
      ∧ 0 < 11)
    ∧ inject_into_html "<!--END-->X<!--START-->Y".data "<!--START-->".data
        "<!--END-->".data "new".data =
      (true, "<!--END-->X<!--START-->Y".data.take (11 + "<!--START-->".data.length) ++
        ('\n' :: "new".data) ++ ('\n' :: "        ".data) ++
        "<!--END-->X<!--START-->Y".data.drop 0) :=
  ⟨⟨by decide, by decide, by decide⟩,
    (inject_into_html_reversed_markers "<!--END-->X<!--START-->Y".data
      "<!--START-->".data "<!--END-->".data "new".data 11 0
      (by decide) (by decide) (by decide)).1⟩


/-! ## Claim C1: category classification -/

/-- **C1** (confirmed).  `get_category` is total and returns exactly
`"custom"` or `"premade"`; it returns `"custom"` exactly when the lowercased tag list
contains the designated tag or the lowercased title contains the substring
`"custom photo"`; and every consumer — the card's `data-category` filter
attribute, the CTA decision, and the related-item grouping — branches on this
same classification. -/
theorem get_category_total_consistent (p q : Product) (all : List Product) :
    (get_category p = "custom" ∨ get_category p = "premade")
    ∧ (get_category p = "custom" ↔
        ((tags_lower p).contains "custom photo magnets" = true ∨
          hasSub "custom photo".data (pyLower (p.title.getD "")).data = true))
    ∧ (is_custom_product p = true ↔ get_category p = "custom")
    ∧ cat_attr p true = " data-category=\"" ++ get_category p ++ "\""
    ∧ (get_category p = "custom" →
        card_cta p = card_cta_custom p ∧ pdp_cta p = pdp_cta_custom p)
    ∧ (q ∈ sameCategoryPeers p all → get_category q = get_category p) := by
  have hiff : is_custom_product p = true ↔ get_category p = "custom" := by
    unfold get_category
    by_cases hc : is_custom_product p = true <;> simp [hc]
  have htag : is_custom_product p = true ↔
      ((tags_lower p).contains "custom photo magnets" = true ∨
        hasSub "custom photo".data (pyLower (p.title.getD "")).data = true) := by
    unfold is_custom_product
    by_cases ht : (tags_lower p).contains "custom photo magnets" = true <;> simp [ht]
  refine ⟨?_, (hiff.symm.trans htag), hiff, rfl, fun hc => ?_, fun hq => ?_⟩
  · unfold get_category
    by_cases hc : is_custom_product p = true <;> simp [hc]
  · have := hiff.mpr hc
    simp [card_cta, pdp_cta, this]
  · have := List.mem_filter.mp hq
    have h2 := this.2
    simp only [Bool.and_eq_true, beq_iff_eq] at h2
    exact h2.2

/-- Witness for C1 at the concrete records `sampleCustom` and
`samplePremade`. -/
theorem get_category_total_consistent_witness :
    (get_category sampleCustom = "custom" ∨ get_category sampleCustom = "premade")
    ∧ (get_category sampleCustom = "custom" ↔
        ((tags_lower sampleCustom).contains "custom photo magnets" = true ∨
          hasSub "custom photo".data (pyLower (sampleCustom.title.getD "")).data = true))
    ∧ (is_custom_product sampleCustom = true ↔ get_category sampleCustom = "custom")
    ∧ cat_attr sampleCustom true = " data-category=\"" ++ get_category sampleCustom ++ "\""
    ∧ (get_category sampleCustom = "custom" →
        card_cta sampleCustom = card_cta_custom sampleCustom
          ∧ pdp_cta sampleCustom = pdp_cta_custom sampleCustom)
    ∧ (samplePremade ∈ sameCategoryPeers sampleCustom [samplePremade] →
        get_category samplePremade = get_category sampleCustom) :=
  get_category_total_consistent sampleCustom samplePremade [samplePremade]

/-! ## Claim C2: CTA decision order -/

theorem card_cta_custom_ne_soldout (p : Product) :
    card_cta_custom p ≠ card_cta_soldout p := by
  intro h
  have ht : startsWithL "<a ".data (card_cta_custom p).data = true := rfl
  have hf : startsWithL "<a ".data (card_cta_soldout p).data = false := rfl
  rw [h, hf] at ht
  exact Bool.false_ne_true ht

theorem pdp_cta_custom_ne_soldout (p : Product) :
    pdp_cta_custom p ≠ pdp_cta_soldout p := by
  intro h
  have ht : startsWithL "<a ".data (pdp_cta_custom p).data = true := rfl
  have hf : startsWithL "<a ".data (pdp_cta_soldout p).data = false := rfl
  rw [h, hf] at ht
  exact Bool.false_ne_true ht

/-- **C2** (confirmed).  Both the card CTA and the detail-page CTA follow the
strict three-way decision order: a `custom` item gets the outbound vendor link
— never the disabled Sold Out control, even when unavailable; otherwise an
unavailable item gets the disabled Sold Out control; otherwise the enabled
Add-to-Cart control carrying the first variant identifier. -/
theorem cta_decision_three_way (p : Product) :
    (is_custom_product p = true →
      card_cta p = card_cta_custom p ∧ pdp_cta p = pdp_cta_custom p
      ∧ card_cta p ≠ card_cta_soldout p ∧ pdp_cta p ≠ pdp_cta_soldout p)
    ∧ (is_custom_product p = false → availableOf p = false →
      card_cta p = card_cta_soldout p ∧ pdp_cta p = pdp_cta_soldout p)
    ∧ (is_custom_product p = false → availableOf p = true →
      card_cta p = card_cta_add p ∧ pdp_cta p = pdp_cta_add p) := by
  refine ⟨fun hc => ?_, fun hc ha => ?_, fun hc ha => ?_⟩
  · refine ⟨by simp [card_cta, hc], by simp [pdp_cta, hc], ?_, ?_⟩
    · simp only [card_cta, hc, if_true]
      exact card_cta_custom_ne_soldout p
    · simp only [pdp_cta, hc, if_true]
      exact pdp_cta_custom_ne_soldout p
  · constructor <;> simp [card_cta, pdp_cta, hc, ha]
  · constructor <;> simp [card_cta, pdp_cta, hc, ha]

/-- Witness for C2 at the unavailable custom item `sampleCustom`. -/
theorem cta_decision_three_way_witness :
    is_custom_product sampleCustom = true
    ∧ (card_cta sampleCustom = card_cta_custom sampleCustom
      ∧ pdp_cta sampleCustom = pdp_cta_custom sampleCustom
      ∧ card_cta sampleCustom ≠ card_cta_soldout sampleCustom
      ∧ pdp_cta sampleCustom ≠ pdp_cta_soldout sampleCustom) :=
  ⟨by decide, (cta_decision_three_way sampleCustom).1 (by decide)⟩

/-! ## Claim C8: JSON-LD image arity -/

/-- **C8** (corrected).  In the single-item detail-page JSON-LD the image
field is a scalar URL when the item has exactly one image and an array of
URLs when it has more than one, as claimed; but in the list form the image
field is ALWAYS the scalar primary-image URL, regardless of how many images
the item has — the arity distinction is not preserved there (see the
counterexample). -/
theorem product_jsonld_image_arity (p : Product) :
    ((jsonld_images p).length = 1 →
      product_jsonld_image p = JVal.jstr ((jsonld_images p).headD ""))
    ∧ (1 < (jsonld_images p).length →
      product_jsonld_image p = JVal.jarr (jsonld_images p))
    ∧ jsonld_list_image p = JVal.jstr (get_image_url p 1200) := by
  refine ⟨fun h1 => ?_, fun h2 => ?_, rfl⟩
  · simp [product_jsonld_image, h1]
  · simp [product_jsonld_image, h2]

theorem product_jsonld_image_arity_witness :
    1 < (jsonld_images sampleTwoImages).length
    ∧ product_jsonld_image sampleTwoImages = JVal.jarr (jsonld_images sampleTwoImages) :=
  ⟨by decide, (product_jsonld_image_arity sampleTwoImages).2.1 (by decide)⟩

/-- Counterexample for C8 as stated: an item with two images gets a scalar
image URL — not an array — in the list-form JSON-LD. -/
theorem jsonld_list_image_counterexample :
    1 < (jsonld_images sampleTwoImages).length
    ∧ jsonld_list_image sampleTwoImages =
        JVal.jstr "https://cdn.shopify.com/f.png?width=1200" := by
  exact ⟨by decide, by decide⟩

/-! ## Claim C4: related-item selection -/

/-- Counterexample for C4 as stated: for a record that lacks an `id` key, in
a catalog listing that record twice, the selection includes the item itself
and contains duplicates — `product_id` defaults to the empty string while
`p.get('id')` is `None`, so the self-exclusion test never fires. -/
theorem relatedFor_counterexample :
    sampleNoId ∈ relatedFor sampleNoId [sampleNoId, sampleNoId]
    ∧ ¬ (relatedFor sampleNoId [sampleNoId, sampleNoId]).Nodup := by
  exact ⟨by decide, by decide⟩

/-- **C4** (corrected).  Under the added premisses that the item has an `id`
key and the catalog holds no duplicate records, the related-items selection
returns at most 4 items — first the same-category peers (excluding the item
itself), then backfill from the rest of the catalog until 4 are chosen or the
catalog is exhausted — never containing the item itself and never containing
duplicates.  (Without an `id` the self-exclusion comparison `p.get('id') !=
product_id` degenerates and the claim fails — see the counterexample.) -/
theorem relatedFor_spec (item : Product) (all : List Product)
    (hid : item.id.isSome = true) (hnd : all.Nodup) :
    (relatedFor item all).length ≤ 4
    ∧ item ∉ relatedFor item all
    ∧ (relatedFor item all).Nodup
    ∧ relatedFor item all =
        (sameCategoryPeers item all ++
          (backfillPool item all).take (4 - (sameCategoryPeers item all).length)).take 4 := by
  obtain ⟨v, hv⟩ := Option.isSome_iff_exists.mp hid
  have hself : idFilter item item = false := by
    simp [idFilter, hv]
  have hnpeers : item ∉ sameCategoryPeers item all := by
    intro hmem
    have := (List.mem_filter.mp hmem).2
    rw [hself] at this
    simp at this
  have hnpool : item ∉ backfillPool item all := by
    intro hmem
    have := (List.mem_filter.mp hmem).2
    rw [hself] at this
    simp at this
  have heq : relatedFor item all =
      (sameCategoryPeers item all ++
        (backfillPool item all).take (4 - (sameCategoryPeers item all).length)).take 4 := by
    unfold relatedFor
    by_cases hlen : (sameCategoryPeers item all).length < 4
    · simp [hlen]
    · have h4 : 4 - (sameCategoryPeers item all).length = 0 := by omega
      simp [hlen, h4]
  refine ⟨?_, ?_, ?_, heq⟩
  · rw [heq]
    exact List.length_take_le 4 _
  · rw [heq]
    intro hmem
    rcases List.mem_append.mp (List.mem_of_mem_take hmem) with h | h
    · exact hnpeers h
    · exact hnpool (List.mem_of_mem_take h)
  · rw [heq]
    have hpeers : (sameCategoryPeers item all).Nodup := hnd.filter _
    have hpool : ((backfillPool item all).take
        (4 - (sameCategoryPeers item all).length)).Nodup :=
      (hnd.filter _).sublist (List.take_sublist _ _)
    have hdisj : (sameCategoryPeers item all).Disjoint
        ((backfillPool item all).take (4 - (sameCategoryPeers item all).length)) := by
      intro a ha hb
      have hbp := List.mem_of_mem_take hb
      have := (List.mem_filter.mp hbp).2
      simp only [Bool.and_eq_true, Bool.not_eq_true'] at this
      have hc : (sameCategoryPeers item all).contains a = false := this.2
      have he : (sameCategoryPeers item all).elem a = true := List.elem_iff.mpr ha
      have he2 : (sameCategoryPeers item all).contains a = true := he
      rw [he2] at hc
      simp at hc
    exact ((hpeers.append hpool hdisj).sublist (List.take_sublist _ _))

/-- Witness for C4. -/
theorem relatedFor_spec_witness :
    (sampleCustom.id.isSome = true ∧ [sampleCustom, samplePremade].Nodup)
    ∧ ((relatedFor sampleCustom [sampleCustom, samplePremade]).length ≤ 4
      ∧ sampleCustom ∉ relatedFor sampleCustom [sampleCustom, samplePremade]
      ∧ (relatedFor sampleCustom [sampleCustom, samplePremade]).Nodup
      ∧ relatedFor sampleCustom [sampleCustom, samplePremade] =
          (sameCategoryPeers sampleCustom [sampleCustom, samplePremade] ++
            (backfillPool sampleCustom [sampleCustom, samplePremade]).take
              (4 - (sameCategoryPeers sampleCustom [sampleCustom, samplePremade]).length)).take 4) :=
  ⟨⟨by decide, by decide⟩,
    relatedFor_spec sampleCustom [sampleCustom, samplePremade] (by decide) (by decide)⟩


/-! ## Claim C9: metadata injection bootstrap -/

theorem pyReplaceF_no_occ {pat s : List Char} (rep : List Char) {f : Nat}
    (hno : strIndex pat s = none) (hf : s.length ≤ f) :
    pyReplaceF pat rep f s = s := by
  induction f generalizing s with
  | zero => rfl
  | succ f ih =>
    cases s with
    | nil => rfl
    | cons c cs =>
      rw [strIndex_cons_eq] at hno
      by_cases hw : startsWithL pat (c :: cs) = true
      · rw [if_pos hw] at hno
        simp at hno
      · rw [if_neg hw] at hno
        have hcs : strIndex pat cs = none := by
          cases hm : strIndex pat cs with
          | none => rfl
          | some k => rw [hm] at hno; simp at hno
        simp only [pyReplaceF]
        rw [if_neg fun hand => hw hand.2]
        have hlen : cs.length ≤ f := by
          simp only [List.length_cons] at hf
          omega
        rw [ih hcs hlen]

theorem pyReplaceF_single {pat s : List Char} (rep : List Char) {f i : Nat}
    (hocc : strIndex pat s = some i)
    (hafter : strIndex pat (s.drop (i + pat.length)) = none)
    (hp : pat ≠ []) (hf : s.length ≤ f) :
    pyReplaceF pat rep f s = s.take i ++ rep ++ s.drop (i + pat.length) := by
  induction f generalizing s i with
  | zero =>
    have hs : s = [] := List.length_eq_zero.mp (Nat.le_zero.mp hf)
    subst hs
    rw [strIndex_nil_eq] at hocc
    by_cases hpe : pat.isEmpty
    · exact absurd (List.isEmpty_iff.mp hpe) hp
    · rw [if_neg hpe] at hocc
      simp at hocc
  | succ f ih =>
    cases s with
    | nil =>
      rw [strIndex_nil_eq] at hocc
      by_cases hpe : pat.isEmpty
      · exact absurd (List.isEmpty_iff.mp hpe) hp
      · rw [if_neg hpe] at hocc
        simp at hocc
    | cons c cs =>
      cases i with
      | zero =>
        have hw : startsWithL pat (c :: cs) = true := by
          simpa using strIndex_startsWith hocc
        have hplen : 1 ≤ pat.length := by
          cases pat with
          | nil => exact absurd rfl hp
          | cons q qs => simp
        simp only [pyReplaceF]
        rw [if_pos ⟨hp, hw⟩]
        have hlen2 : ((c :: cs).drop pat.length).length ≤ f := by
          simp only [List.length_drop, List.length_cons]
          simp only [List.length_cons] at hf
          omega
        rw [pyReplaceF_no_occ rep (by simpa using hafter) hlen2]
        simp
      | succ j =>
        rw [strIndex_cons_eq] at hocc
        by_cases hw : startsWithL pat (c :: cs) = true
        · rw [if_pos hw] at hocc
          simp at hocc
        · rw [if_neg hw] at hocc
          have hcs : strIndex pat cs = some j := by
            cases hm : strIndex pat cs with
            | none => rw [hm] at hocc; simp at hocc
            | some k =>
              rw [hm] at hocc
              simp only [Option.map_some', Option.some.injEq] at hocc
              simp only [Option.some.injEq]
              omega
          have hdropeq : (c :: cs).drop (j + 1 + pat.length) = cs.drop (j + pat.length) := by
            rw [show j + 1 + pat.length = (j + pat.length) + 1 by omega, List.drop_succ_cons]
          have hafter2 : strIndex pat (cs.drop (j + pat.length)) = none := by
            rw [← hdropeq]
            exact hafter
          have hlen : cs.length ≤ f := by
            simp only [List.length_cons] at hf
            omega
          simp only [pyReplaceF]
          rw [if_neg fun hand => hw hand.2, ih hcs hafter2 hlen]
          rw [hdropeq, List.take_succ_cons]
          simp

/-- **C9** (corrected).  When the host document lacks the metadata start
marker and the fixed anchor `</head>` occurs exactly once (first occurrence
at `i`, none afterwards), `inject_jsonld` synthesizes the marker pair with
the content and inserts the block exactly once, immediately before that
anchor, leaving every other character unchanged.  (The `str.replace` call the
script uses inserts before EVERY anchor occurrence, so uniqueness of the
anchor is required — see the counterexample.) -/
theorem inject_jsonld_inserts_before_anchor (html s : List Char) (i : Nat)
    (hno : strIndex PRODUCTS_JSONLD_START html = none)
    (hanch : strIndex "</head>".data html = some i)
    (huniq : strIndex "</head>".data
      (html.drop (i + "</head>".data.length)) = none) :
    inject_jsonld html s =
      some (html.take i ++ jsonldInsertion s ++ html.drop i) := by
  have hp : "</head>".data ≠ [] := by decide
  have h1 : pyReplace "</head>".data (jsonldInsertion s ++ "</head>".data) html =
      html.take i ++ (jsonldInsertion s ++ "</head>".data) ++
        html.drop (i + "</head>".data.length) := by
    unfold pyReplace
    exact pyReplaceF_single _ hanch huniq hp (Nat.le_refl _)
  have hmain : inject_jsonld html s =
      some (pyReplace "</head>".data (jsonldInsertion s ++ "</head>".data) html) := by
    unfold inject_jsonld
    rw [hno]
  rw [hmain, h1,
    show html.take i ++ (jsonldInsertion s ++ "</head>".data) ++
        html.drop (i + "</head>".data.length) =
      html.take i ++ jsonldInsertion s ++
        ("</head>".data ++ html.drop (i + "</head>".data.length)) from by
      simp [List.append_assoc],
    ← strIndex_drop hanch]

/-- Witness for C9: a document with the single anchor and no markers gets the
synthesized block exactly once, right before the anchor. -/
theorem inject_jsonld_inserts_before_anchor_witness :
    (strIndex PRODUCTS_JSONLD_START "<head>A</head>".data = none
      ∧ strIndex "</head>".data "<head>A</head>".data = some 7
      ∧ strIndex "</head>".data
          ("<head>A</head>".data.drop (7 + "</head>".data.length)) = none)
    ∧ inject_jsonld "<head>A</head>".data "J".data =
      some ("<head>A</head>".data.take 7 ++ jsonldInsertion "J".data ++
        "<head>A</head>".data.drop 7) :=
  ⟨⟨by decide, by decide, by decide⟩,
    inject_jsonld_inserts_before_anchor "<head>A</head>".data "J".data 7
      (by decide) (by decide) (by decide)⟩

/-- Counterexample for C9 as stated: in a marker-free document where the
anchor `</head>` occurs twice, the synthesized block is inserted before BOTH
occurrences, not exactly once. -/
theorem inject_jsonld_counterexample :
    strIndex PRODUCTS_JSONLD_START "<head>A</head>B</head>".data = none
    ∧ inject_jsonld "<head>A</head>B</head>".data "J".data =
      some ("<head>A".data ++ jsonldInsertion "J".data ++ "</head>B".data ++
        jsonldInsertion "J".data ++ "</head>".data)
    ∧ ("<head>A".data ++ jsonldInsertion "J".data ++ "</head>B".data ++
        jsonldInsertion "J".data ++ "</head>".data) ≠
      ("<head>A".data ++ jsonldInsertion "J".data ++ "</head>B</head>".data) := by
  refine ⟨by decide, by decide, by decide⟩


/-! ## Claim C3: price formatting -/

/-! ## Claim C3: price formatting through binary64 -/

theorem natLog2F_spec : ∀ (f n : Nat), 1 ≤ n → n ≤ f →
    2 ^ natLog2F f n ≤ n ∧ n < 2 ^ (natLog2F f n + 1) := by
  intro f
  induction f with
  | zero => intro n h1 h2; omega
  | succ f ih =>
    intro n h1 h2
    by_cases h : 2 ≤ n
    · have hrec := ih (n / 2) (by omega) (by omega)
      simp only [natLog2F, if_pos h]
      obtain ⟨ha, hb⟩ := hrec
      rw [pow_succ] at hb
      rw [pow_succ, pow_succ]
      omega
    · simp only [natLog2F, if_neg h]
      simp only [pow_zero, pow_one]
      omega

theorem natLog2_spec {n : Nat} (h : 1 ≤ n) :
    2 ^ natLog2 n ≤ n ∧ n < 2 ^ (natLog2 n + 1) :=
  natLog2F_spec n n h (Nat.le_refl n)

theorem zpow_sub_nat (L M : ℕ) :
    (2:ℚ) ^ ((L:ℤ) - (M:ℤ)) = 2 ^ L / 2 ^ M := by
  rw [zpow_sub₀ (by norm_num : (2:ℚ) ≠ 0), zpow_natCast, zpow_natCast]

theorem fexp_spec {a b : ℕ} (hb : 0 < b) (hlow : (1:ℚ)/2^100 ≤ (a:ℚ)/b) :
    (2:ℚ) ^ fexp a b ≤ (a:ℚ)/b ∧ ((a:ℚ)/b) < 2 ^ (fexp a b + 1) := by
  have hbq : (0:ℚ) < (b:ℚ) := by exact_mod_cast hb
  have haq : (0:ℚ) < (a:ℚ) := by
    rcases Nat.eq_zero_or_pos a with rfl | ha
    · exfalso
      simp only [Nat.cast_zero, zero_div] at hlow
      have h0 : (0:ℚ) < 1/2^100 := by positivity
      linarith
    · exact_mod_cast ha
  have hscale : b ≤ a * 2 ^ 200 := by
    have h1 : (b:ℚ) ≤ (a:ℚ) * 2 ^ 100 := by
      rw [div_le_div_iff₀ (by positivity) hbq] at hlow
      linarith
    have h2 : b ≤ a * 2 ^ 100 := by exact_mod_cast h1
    calc b ≤ a * 2 ^ 100 := h2
      _ ≤ a * 2 ^ 200 := Nat.mul_le_mul_left a
          (Nat.pow_le_pow_right (by norm_num) (by norm_num))
  have hN1 : 1 ≤ a * 2 ^ 200 / b := (Nat.one_le_div_iff hb).mpr hscale
  obtain ⟨hL1, hL2⟩ := natLog2_spec hN1
  have hdm := Nat.div_add_mod (a * 2 ^ 200) b
  have hmlt := Nat.mod_lt (a * 2 ^ 200) hb
  have key1 : b * (a * 2 ^ 200 / b) ≤ a * 2 ^ 200 := by omega
  have key2 : a * 2 ^ 200 < b * (a * 2 ^ 200 / b + 1) := by
    have hx : b * (a * 2 ^ 200 / b + 1) = b * (a * 2 ^ 200 / b) + b := by ring
    omega
  have key1q : (b:ℚ) * (a * 2 ^ 200 / b : ℕ) ≤ (a:ℚ) * 2 ^ 200 := by
    exact_mod_cast key1
  have key2q : (a:ℚ) * 2 ^ 200 < (b:ℚ) * ((a * 2 ^ 200 / b : ℕ) + 1) := by
    exact_mod_cast key2
  have hL1q : (2:ℚ) ^ natLog2 (a * 2 ^ 200 / b) ≤ ((a * 2 ^ 200 / b : ℕ) : ℚ) := by
    exact_mod_cast hL1
  have hL2q : ((a * 2 ^ 200 / b : ℕ) : ℚ) + 1 ≤
      2 ^ (natLog2 (a * 2 ^ 200 / b) + 1) := by
    exact_mod_cast hL2
  have h200 : ((200:ℕ):ℤ) = (200:ℤ) := by norm_num
  have h2200 : (0:ℚ) < 2 ^ (200:ℕ) := by positivity
  have hfe1 : fexp a b = ((natLog2 (a * 2 ^ 200 / b) : ℕ) : ℤ) - ((200:ℕ):ℤ) := by
    rw [h200]
    rfl
  constructor
  · rw [hfe1, zpow_sub_nat, div_le_div_iff₀ h2200 hbq]
    calc (2:ℚ) ^ natLog2 (a * 2 ^ 200 / b) * b
        ≤ ((a * 2 ^ 200 / b : ℕ) : ℚ) * b :=
          mul_le_mul_of_nonneg_right hL1q hbq.le
      _ = (b:ℚ) * (a * 2 ^ 200 / b : ℕ) := by ring
      _ ≤ (a:ℚ) * 2 ^ 200 := key1q
  · have hstep : fexp a b + 1 =
        ((natLog2 (a * 2 ^ 200 / b) + 1 : ℕ) : ℤ) - ((200:ℕ):ℤ) := by
      rw [hfe1, Nat.cast_add, Nat.cast_one]
      ring
    rw [hstep, zpow_sub_nat, div_lt_div_iff₀ hbq h2200]
    calc (a:ℚ) * 2 ^ 200 < (b:ℚ) * ((a * 2 ^ 200 / b : ℕ) + 1) := key2q
      _ ≤ (b:ℚ) * 2 ^ (natLog2 (a * 2 ^ 200 / b) + 1) :=
          mul_le_mul_of_nonneg_left hL2q hbq.le
      _ = 2 ^ (natLog2 (a * 2 ^ 200 / b) + 1) * b := by ring

theorem rhalfEvenFrac_val (n d : ℕ) (hd : 0 < d) :
    (n:ℚ)/d = (n / d : ℕ) + ((n % d : ℕ) : ℚ) / d := by
  have hdq : ((d:ℚ)) ≠ 0 := by exact_mod_cast hd.ne'
  have h : (n:ℚ) = ((n / d : ℕ) : ℚ) * d + ((n % d : ℕ) : ℚ) := by
    have hn : (d * (n / d) + n % d : ℕ) = n := Nat.div_add_mod n d
    calc (n:ℚ) = ((d * (n / d) + n % d : ℕ) : ℚ) := by rw [hn]
      _ = ((n / d : ℕ) : ℚ) * d + ((n % d : ℕ) : ℚ) := by push_cast; ring
  rw [h, add_div, mul_div_cancel_right₀ _ hdq]

theorem rhalfEvenFrac_bounds {n d : ℕ} (hd : 0 < d) :
    |(rhalfEvenFrac n d : ℚ) - (n:ℚ)/d| ≤ 1/2 := by
  have hdq : (0:ℚ) < (d:ℚ) := by exact_mod_cast hd
  have hrd : ((n % d : ℕ) : ℚ) / d < 1 := by
    rw [div_lt_one hdq]
    exact_mod_cast Nat.mod_lt n hd
  have hrd0 : (0:ℚ) ≤ ((n % d : ℕ) : ℚ) / d := by positivity
  rw [rhalfEvenFrac_val n d hd]
  unfold rhalfEvenFrac
  by_cases h1 : 2 * (n % d) < d
  · rw [if_pos h1]
    have : ((n % d : ℕ) : ℚ) / d < 1/2 := by
      rw [div_lt_div_iff₀ hdq (by norm_num)]
      exact_mod_cast by omega
    rw [abs_le]
    refine ⟨by linarith, by linarith⟩
  · rw [if_neg h1]
    by_cases h2 : d < 2 * (n % d)
    · rw [if_pos h2]
      have : (1:ℚ)/2 < ((n % d : ℕ) : ℚ) / d := by
        rw [div_lt_div_iff₀ (by norm_num) hdq]
        exact_mod_cast by omega
      rw [abs_le]
      refine ⟨by push_cast; linarith, by push_cast; linarith⟩
    · have heq : ((n % d : ℕ) : ℚ) / d = 1/2 := by
        have : 2 * (n % d) = d := by omega
        rw [div_eq_div_iff hdq.ne' (by norm_num : (2:ℚ) ≠ 0)]
        exact_mod_cast by omega
      by_cases h3 : n / d % 2 = 0 <;>
        [rw [if_neg h2, if_pos h3]; rw [if_neg h2, if_neg h3]] <;>
        rw [abs_le] <;> constructor <;> push_cast <;> linarith

theorem rhalfEvenFrac_eq_of_near {n d k : ℕ} (hd : 0 < d)
    (h1 : (k:ℚ) - 1/2 < (n:ℚ)/d) (h2 : (n:ℚ)/d < (k:ℚ) + 1/2) :
    rhalfEvenFrac n d = k := by
  have hdq : (0:ℚ) < (d:ℚ) := by exact_mod_cast hd
  have hval := rhalfEvenFrac_val n d hd
  have hrd : ((n % d : ℕ) : ℚ) / d < 1 := by
    rw [div_lt_one hdq]
    exact_mod_cast Nat.mod_lt n hd
  have hrd0 : (0:ℚ) ≤ ((n % d : ℕ) : ℚ) / d := by positivity
  unfold rhalfEvenFrac
  by_cases hc1 : 2 * (n % d) < d
  · rw [if_pos hc1]
    have hlt : ((n % d : ℕ) : ℚ) / d < 1/2 := by
      rw [div_lt_div_iff₀ hdq (by norm_num)]
      exact_mod_cast by omega
    -- (q : ℚ) is within (k - 1, k + 1/2) so q = k
    have ha : ((n / d : ℕ) : ℚ) < (k:ℚ) + 1/2 := by
      rw [hval] at h2
      linarith
    have hb : (k:ℚ) - 1 < ((n / d : ℕ) : ℚ) := by
      rw [hval] at h1
      linarith
    have ha2 : 2 * (n / d) < 2 * k + 1 := by
      have hq : (2:ℚ) * ((n / d : ℕ) : ℚ) < 2 * (k:ℚ) + 1 := by linarith
      exact_mod_cast hq
    have hb2 : (k:ℚ) - 1 < ((n / d : ℕ) : ℚ) := hb
    have hb3 : k < n / d + 1 := by
      have hq : (k:ℚ) < ((n / d : ℕ) : ℚ) + 1 := by linarith
      exact_mod_cast hq
    omega
  · rw [if_neg hc1]
    by_cases hc2 : d < 2 * (n % d)
    · rw [if_pos hc2]
      have hlt : (1:ℚ)/2 < ((n % d : ℕ) : ℚ) / d := by
        rw [div_lt_div_iff₀ (by norm_num) hdq]
        exact_mod_cast by omega
      have ha : ((n / d : ℕ) : ℚ) + 1/2 < (k:ℚ) + 1/2 := by
        rw [hval] at h2
        linarith
      have hb : (k:ℚ) - 1/2 < ((n / d : ℕ) : ℚ) + 1 := by
        rw [hval] at h1
        linarith
      have ha2 : n / d < k := by
        have hq : ((n / d : ℕ) : ℚ) < (k:ℚ) := by linarith
        exact_mod_cast hq
      have hb2 : 2 * k < 2 * (n / d) + 3 := by
        have hq : 2 * (k:ℚ) < 2 * ((n / d : ℕ) : ℚ) + 3 := by linarith
        exact_mod_cast hq
      omega
    · exfalso
      have heq : ((n % d : ℕ) : ℚ) / d = 1/2 := by
        have h3 : 2 * (n % d) = d := by omega
        rw [div_eq_div_iff hdq.ne' (by norm_num : (2:ℚ) ≠ 0)]
        exact_mod_cast by omega
      rw [hval, heq] at h1 h2
      have ha2 : n / d < k := by
        have hq : ((n / d : ℕ) : ℚ) < (k:ℚ) := by linarith
        exact_mod_cast hq
      have hb2 : k < n / d + 1 := by
        have hq : (k:ℚ) < ((n / d : ℕ) : ℚ) + 1 := by linarith
        exact_mod_cast hq
      omega

theorem natDiv_congr {a b c d : ℕ} (hb : 0 < b) (hd : 0 < d)
    (h : a * d = c * b) : a / b = c / d := by
  have e1 := Nat.div_add_mod a b
  have m1 := Nat.mod_lt a hb
  symm
  apply Nat.div_eq_of_lt_le
  · -- a / b * d ≤ c
    have h1 : b * (a / b) ≤ a := by omega
    have h2 : b * (a / b) * d ≤ a * d := Nat.mul_le_mul_right d h1
    rw [h] at h2
    have h3 : b * (a / b * d) ≤ b * c := by
      calc b * (a / b * d) = b * (a / b) * d := by ring
        _ ≤ c * b := h2
        _ = b * c := by ring
    exact Nat.le_of_mul_le_mul_left h3 hb
  · -- c < (a / b + 1) * d
    have h1 : a < b * (a / b + 1) := by
      have hx : b * (a / b + 1) = b * (a / b) + b := by ring
      omega
    have h2 : a * d < b * (a / b + 1) * d :=
      Nat.mul_lt_mul_of_lt_of_le h1 (Nat.le_refl d) hd
    rw [h] at h2
    have h3 : b * c < b * ((a / b + 1) * d) := by
      calc b * c = c * b := by ring
        _ < b * (a / b + 1) * d := h2
        _ = b * ((a / b + 1) * d) := by ring
    exact Nat.lt_of_mul_lt_mul_left h3

theorem natModMul_congr {n₁ d₁ n₂ d₂ : ℕ} (h₁ : 0 < d₁) (h₂ : 0 < d₂)
    (h : n₁ * d₂ = n₂ * d₁) : (n₁ % d₁) * d₂ = (n₂ % d₂) * d₁ := by
  have hq : n₁ / d₁ = n₂ / d₂ := natDiv_congr h₁ h₂ h
  have e1 := Nat.div_add_mod n₁ d₁
  have e2 := Nat.div_add_mod n₂ d₂
  have expand : d₁ * (n₁ / d₁) * d₂ + (n₁ % d₁) * d₂ =
      d₂ * (n₂ / d₂) * d₁ + (n₂ % d₂) * d₁ := by
    calc d₁ * (n₁ / d₁) * d₂ + (n₁ % d₁) * d₂
        = (d₁ * (n₁ / d₁) + n₁ % d₁) * d₂ := by ring
      _ = n₁ * d₂ := by rw [e1]
      _ = n₂ * d₁ := h
      _ = (d₂ * (n₂ / d₂) + n₂ % d₂) * d₁ := by rw [e2]
      _ = d₂ * (n₂ / d₂) * d₁ + (n₂ % d₂) * d₁ := by ring
  have e3 : d₂ * (n₂ / d₂) * d₁ = d₁ * (n₁ / d₁) * d₂ := by
    rw [hq]
    ring
  omega

theorem rhalfEvenFrac_congr {n₁ d₁ n₂ d₂ : ℕ} (h₁ : 0 < d₁) (h₂ : 0 < d₂)
    (h : n₁ * d₂ = n₂ * d₁) : rhalfEvenFrac n₁ d₁ = rhalfEvenFrac n₂ d₂ := by
  have hq : n₁ / d₁ = n₂ / d₂ := natDiv_congr h₁ h₂ h
  have hm := natModMul_congr h₁ h₂ h
  have hc1 : 2 * (n₁ % d₁) < d₁ ↔ 2 * (n₂ % d₂) < d₂ := by
    constructor
    · intro hx
      apply (Nat.mul_lt_mul_right h₁).mp
      calc 2 * (n₂ % d₂) * d₁ = 2 * ((n₂ % d₂) * d₁) := by ring
        _ = 2 * ((n₁ % d₁) * d₂) := by rw [hm]
        _ = 2 * (n₁ % d₁) * d₂ := by ring
        _ < d₁ * d₂ := (Nat.mul_lt_mul_right h₂).mpr hx
        _ = d₂ * d₁ := by ring
    · intro hx
      apply (Nat.mul_lt_mul_right h₂).mp
      calc 2 * (n₁ % d₁) * d₂ = 2 * ((n₁ % d₁) * d₂) := by ring
        _ = 2 * ((n₂ % d₂) * d₁) := by rw [hm]
        _ = 2 * (n₂ % d₂) * d₁ := by ring
        _ < d₂ * d₁ := (Nat.mul_lt_mul_right h₁).mpr hx
        _ = d₁ * d₂ := by ring
  have hc2 : d₁ < 2 * (n₁ % d₁) ↔ d₂ < 2 * (n₂ % d₂) := by
    constructor
    · intro hx
      apply (Nat.mul_lt_mul_right h₁).mp
      calc d₂ * d₁ = d₁ * d₂ := by ring
        _ < 2 * (n₁ % d₁) * d₂ := (Nat.mul_lt_mul_right h₂).mpr hx
        _ = 2 * ((n₁ % d₁) * d₂) := by ring
        _ = 2 * ((n₂ % d₂) * d₁) := by rw [hm]
        _ = 2 * (n₂ % d₂) * d₁ := by ring
    · intro hx
      apply (Nat.mul_lt_mul_right h₂).mp
      calc d₁ * d₂ = d₂ * d₁ := by ring
        _ < 2 * (n₂ % d₂) * d₁ := (Nat.mul_lt_mul_right h₁).mpr hx
        _ = 2 * ((n₂ % d₂) * d₁) := by ring
        _ = 2 * ((n₁ % d₁) * d₂) := by rw [hm]
        _ = 2 * (n₁ % d₁) * d₂ := by ring
  unfold rhalfEvenFrac
  rw [hq, if_congr hc1 rfl (if_congr hc2 rfl rfl)]

theorem fexp_congr {a₁ b₁ a₂ b₂ : ℕ} (h₁ : 0 < b₁) (h₂ : 0 < b₂)
    (h : a₁ * b₂ = a₂ * b₁) : fexp a₁ b₁ = fexp a₂ b₂ := by
  unfold fexp
  have hdiv : a₁ * 2 ^ 200 / b₁ = a₂ * 2 ^ 200 / b₂ := by
    apply natDiv_congr h₁ h₂
    calc a₁ * 2 ^ 200 * b₂ = a₁ * b₂ * 2 ^ 200 := by ring
      _ = a₂ * b₁ * 2 ^ 200 := by rw [h]
      _ = a₂ * 2 ^ 200 * b₁ := by ring
  rw [hdiv]

theorem floatBits_congr {a₁ b₁ a₂ b₂ : ℕ} (h₁ : 0 < b₁) (h₂ : 0 < b₂)
    (h : a₁ * b₂ = a₂ * b₁) : floatBits a₁ b₁ = floatBits a₂ b₂ := by
  have hfe := fexp_congr h₁ h₂ h
  unfold floatBits
  rw [hfe]
  by_cases hneg : 52 - fexp a₂ b₂ < 0
  · rw [if_pos hneg, if_pos hneg]
    have hm : rhalfEvenFrac a₁ (b₁ * 2 ^ (fexp a₂ b₂ - 52).toNat) =
        rhalfEvenFrac a₂ (b₂ * 2 ^ (fexp a₂ b₂ - 52).toNat) := by
      apply rhalfEvenFrac_congr (by positivity) (by positivity)
      calc a₁ * (b₂ * 2 ^ (fexp a₂ b₂ - 52).toNat)
          = a₁ * b₂ * 2 ^ (fexp a₂ b₂ - 52).toNat := by ring
        _ = a₂ * b₁ * 2 ^ (fexp a₂ b₂ - 52).toNat := by rw [h]
        _ = a₂ * (b₁ * 2 ^ (fexp a₂ b₂ - 52).toNat) := by ring
    rw [hm]
  · rw [if_neg hneg, if_neg hneg]
    have hm : rhalfEvenFrac (a₁ * 2 ^ (52 - fexp a₂ b₂).toNat) b₁ =
        rhalfEvenFrac (a₂ * 2 ^ (52 - fexp a₂ b₂).toNat) b₂ := by
      apply rhalfEvenFrac_congr h₁ h₂
      calc a₁ * 2 ^ (52 - fexp a₂ b₂).toNat * b₂
          = a₁ * b₂ * 2 ^ (52 - fexp a₂ b₂).toNat := by ring
        _ = a₂ * b₁ * 2 ^ (52 - fexp a₂ b₂).toNat := by rw [h]
        _ = a₂ * 2 ^ (52 - fexp a₂ b₂).toNat * b₁ := by ring
    rw [hm]

theorem floatVal_norm (m : ℕ) (e : ℤ) :
    floatVal (if m = 2 ^ 53 then (2 ^ 52, e + 1) else (m, e)) =
      (m:ℚ) * 2 ^ (e - 52) := by
  by_cases hm : m = 2 ^ 53
  · subst hm
    rw [if_pos rfl]
    unfold floatVal
    rw [show e + 1 - 52 = (e - 52) + 1 from by ring,
      zpow_add₀ (by norm_num : (2:ℚ) ≠ 0)]
    push_cast
    ring
  · rw [if_neg hm]
    rfl

theorem floatBits_val {a b : ℕ} (hb : 0 < b) :
    |floatVal (floatBits a b) - (a:ℚ)/b| ≤ 1/2 * 2 ^ (fexp a b - 52) := by
  have hz : (0:ℚ) < 2 ^ (fexp a b - 52) := by positivity
  by_cases hneg : 52 - fexp a b < 0
  · set t := (fexp a b - 52).toNat with htdef
    have ht : ((t:ℕ) : ℤ) = fexp a b - 52 := Int.toNat_of_nonneg (by omega)
    have h2t : ((2:ℚ) ^ t) = 2 ^ (fexp a b - 52) := by
      rw [← zpow_natCast (2:ℚ) t, ht]
    have hdpos : 0 < b * 2 ^ t := by positivity
    have hbound := @rhalfEvenFrac_bounds a (b * 2 ^ t) hdpos
    have hbt : ((b * 2 ^ t : ℕ) : ℚ) = (b:ℚ) * 2 ^ t := by push_cast; ring
    have hval : (a:ℚ) / ((b * 2 ^ t : ℕ) : ℚ) * 2 ^ (fexp a b - 52) =
        (a:ℚ) / (b:ℚ) := by
      rw [hbt, ← h2t]
      have h2t0 : ((2:ℚ) ^ t) ≠ 0 := by positivity
      field_simp
      ring
    have hfv : floatVal (floatBits a b) =
        (rhalfEvenFrac a (b * 2 ^ t) : ℚ) * 2 ^ (fexp a b - 52) := by
      unfold floatBits
      rw [if_pos hneg]
      exact floatVal_norm _ _
    rw [hfv, ← hval,
      show (rhalfEvenFrac a (b * 2 ^ t) : ℚ) * 2 ^ (fexp a b - 52) -
          (a:ℚ) / ((b * 2 ^ t : ℕ) : ℚ) * 2 ^ (fexp a b - 52) =
        ((rhalfEvenFrac a (b * 2 ^ t) : ℚ) - (a:ℚ) / ((b * 2 ^ t : ℕ) : ℚ)) *
          2 ^ (fexp a b - 52) from by ring,
      abs_mul, abs_of_pos hz]
    exact mul_le_mul_of_nonneg_right hbound hz.le
  · set s := (52 - fexp a b).toNat with hsdef
    have hs : ((s:ℕ) : ℤ) = 52 - fexp a b := Int.toNat_of_nonneg (by omega)
    have h2s : ((2:ℚ) ^ s) = 2 ^ ((52:ℤ) - fexp a b) := by
      rw [← zpow_natCast (2:ℚ) s, hs]
    have hbound := @rhalfEvenFrac_bounds (a * 2 ^ s) b hb
    have hat : ((a * 2 ^ s : ℕ) : ℚ) = (a:ℚ) * 2 ^ s := by push_cast; ring
    have hval : ((a * 2 ^ s : ℕ) : ℚ) / (b:ℚ) * 2 ^ (fexp a b - 52) =
        (a:ℚ) / (b:ℚ) := by
      rw [hat, ← zpow_natCast (2:ℚ) s, hs,
        show ((52:ℤ) - fexp a b) = -(fexp a b - 52) from by ring, zpow_neg]
      have h2z : ((2:ℚ) ^ (fexp a b - 52)) ≠ 0 := hz.ne'
      field_simp
      ring
    have hfv : floatVal (floatBits a b) =
        (rhalfEvenFrac (a * 2 ^ s) b : ℚ) * 2 ^ (fexp a b - 52) := by
      unfold floatBits
      rw [if_neg hneg]
      exact floatVal_norm _ _
    rw [hfv, ← hval,
      show (rhalfEvenFrac (a * 2 ^ s) b : ℚ) * 2 ^ (fexp a b - 52) -
          ((a * 2 ^ s : ℕ) : ℚ) / (b:ℚ) * 2 ^ (fexp a b - 52) =
        ((rhalfEvenFrac (a * 2 ^ s) b : ℚ) - ((a * 2 ^ s : ℕ) : ℚ) / (b:ℚ)) *
          2 ^ (fexp a b - 52) from by ring,
      abs_mul, abs_of_pos hz]
    exact mul_le_mul_of_nonneg_right hbound hz.le

theorem floatCents_eq {f : ℕ × ℤ} {k : ℕ}
    (h1 : (k:ℚ) - 1/2 < 100 * floatVal f)
    (h2 : 100 * floatVal f < (k:ℚ) + 1/2) :
    floatCents f = k := by
  by_cases hneg : f.2 - 52 < 0
  · have hs : (((52 - f.2).toNat : ℕ) : ℤ) = 52 - f.2 :=
      Int.toNat_of_nonneg (by omega)
    have hval : ((100 * f.1 : ℕ) : ℚ) / ((2 ^ (52 - f.2).toNat : ℕ) : ℚ) =
        100 * floatVal f := by
      unfold floatVal
      have hc1 : ((100 * f.1 : ℕ) : ℚ) = 100 * (f.1 : ℚ) := by push_cast; ring
      have hc2 : ((2 ^ (52 - f.2).toNat : ℕ) : ℚ) = (2:ℚ) ^ (52 - f.2).toNat := by
        push_cast
        ring
      rw [hc1, hc2, ← zpow_natCast (2:ℚ) (52 - f.2).toNat, hs,
        show (52:ℤ) - f.2 = -(f.2 - 52) from by ring, zpow_neg, div_eq_mul_inv, inv_inv]
      ring
    unfold floatCents
    rw [if_pos hneg]
    apply rhalfEvenFrac_eq_of_near (by positivity)
    · rw [hval]; exact h1
    · rw [hval]; exact h2
  · have hs : (((f.2 - 52).toNat : ℕ) : ℤ) = f.2 - 52 :=
      Int.toNat_of_nonneg (by omega)
    have hval : ((100 * f.1 * 2 ^ (f.2 - 52).toNat : ℕ) : ℚ) = 100 * floatVal f := by
      unfold floatVal
      push_cast
      rw [← zpow_natCast (2:ℚ) (f.2 - 52).toNat, hs]
      ring
    have h1q : (k:ℚ) - 1/2 < ((100 * f.1 * 2 ^ (f.2 - 52).toNat : ℕ) : ℚ) := by
      rw [hval]; exact h1
    have h2q : ((100 * f.1 * 2 ^ (f.2 - 52).toNat : ℕ) : ℚ) < (k:ℚ) + 1/2 := by
      rw [hval]; exact h2
    have hle1 : k ≤ 100 * f.1 * 2 ^ (f.2 - 52).toNat := by
      by_contra hgt
      push_neg at hgt
      have hcast : ((100 * f.1 * 2 ^ (f.2 - 52).toNat : ℕ) : ℚ) + 1 ≤ (k:ℚ) := by
        exact_mod_cast hgt
      linarith
    have hle2 : 100 * f.1 * 2 ^ (f.2 - 52).toNat ≤ k := by
      by_contra hgt
      push_neg at hgt
      have hcast : (k:ℚ) + 1 ≤ ((100 * f.1 * 2 ^ (f.2 - 52).toNat : ℕ) : ℚ) := by
        exact_mod_cast hgt
      linarith
    unfold floatCents
    rw [if_neg hneg]
    omega

theorem floatBits_cents {a b k : ℕ} (hb : 0 < b) (hk1 : 1 ≤ k) (hk2 : k < 2 ^ 40)
    (hv : (a:ℚ)/b = (k:ℚ)/100) :
    floatCents (floatBits a b) = k ∧ (floatBits a b).1 ≠ 0 := by
  have hkq : (1:ℚ) ≤ (k:ℚ) := by exact_mod_cast hk1
  have hlow : (1:ℚ)/2^100 ≤ (a:ℚ)/b := by
    rw [hv, div_le_div_iff₀ (by positivity) (by norm_num : (0:ℚ) < 100)]
    nlinarith [hkq]
  obtain ⟨he1, he2⟩ := fexp_spec hb hlow
  have heb : fexp a b ≤ 33 := by
    by_contra hgt
    push_neg at hgt
    have h34 : (2:ℚ) ^ (34:ℤ) ≤ 2 ^ fexp a b :=
      zpow_le_zpow_right₀ (by norm_num) (by omega)
    have hbig : (2:ℚ) ^ (34:ℤ) ≤ (k:ℚ)/100 := by
      rw [← hv]
      exact le_trans h34 he1
    have hk40 : (k:ℚ) < 2 ^ (40:ℕ) := by exact_mod_cast hk2
    rw [le_div_iff₀ (by norm_num : (0:ℚ) < 100)] at hbig
    have hcontra : (2:ℚ) ^ (34:ℤ) * 100 < 2 ^ (40:ℕ) := lt_of_le_of_lt hbig hk40
    norm_num at hcontra
  have herr := @floatBits_val a b hb
  have hsm : (2:ℚ) ^ (fexp a b - 52) ≤ 2 ^ (-19:ℤ) :=
    zpow_le_zpow_right₀ (by norm_num) (by omega)
  have h19 : (2:ℚ) ^ (-19:ℤ) = 1 / 524288 := by norm_num
  have herr2 : |floatVal (floatBits a b) - (k:ℚ)/100| ≤ 1/1048576 := by
    rw [← hv]
    calc |floatVal (floatBits a b) - (a:ℚ)/b|
        ≤ 1/2 * 2 ^ (fexp a b - 52) := herr
      _ ≤ 1/2 * (1/524288) := by
          rw [← h19]
          exact mul_le_mul_of_nonneg_left hsm (by norm_num)
      _ = 1/1048576 := by norm_num
  have habs2 := abs_le.mp herr2
  constructor
  · apply floatCents_eq
    · linarith [habs2.1]
    · linarith [habs2.2]
  · intro hm0
    have hfv0 : floatVal (floatBits a b) = 0 := by
      unfold floatVal
      rw [hm0]
      simp
    rw [hfv0] at habs2
    have hk100 : (k:ℚ)/100 ≤ 1/1048576 := by linarith [habs2.1]
    have : (1:ℚ)/100 ≤ (k:ℚ)/100 := by linarith [hkq]
    linarith

theorem decParts?_den_pos {s : String} {a b : ℕ}
    (h : decParts? s = some (a, b)) : 0 < b := by
  unfold decParts? at h
  split at h
  · split at h
    · simp only [Option.some.injEq, Prod.mk.injEq] at h
      omega
    · exact Option.noConfusion h
  · split at h
    · simp only [Option.some.injEq, Prod.mk.injEq] at h
      obtain ⟨_, hb⟩ := h
      subst hb
      positivity
    · exact Option.noConfusion h

theorem twoDigits_length : ∀ n : Nat, n < 100 → (twoDigits n).length = 2 := by
  decide

theorem format_price_eval {p : Product} {f₁ f₂ : ℕ × ℤ}
    (h1 : pyFloat? (min_amount_str p) = some f₁)
    (h2 : pyFloat? (max_amount_str p) = some f₂) :
    format_price p =
      (if f₁.1 = 0 then some "Free"
       else if f₁ ≠ f₂ then
         some ("<span class=\"from\">From </span>" ++
           ("$" ++ fmtCents (floatCents f₁)))
       else some ("$" ++ fmtCents (floatCents f₁))) := by
  unfold format_price
  rw [h1, h2]

theorem decParts?_zero_iff {a b k : ℕ} (hb : 0 < b)
    (hv : (a:ℚ)/b = (k:ℚ)/100) : a = 0 ↔ k = 0 := by
  constructor
  · intro h0
    subst h0
    rw [Nat.cast_zero, zero_div] at hv
    rcases div_eq_zero_iff.mp hv.symm with hk | h100
    · exact_mod_cast hk
    · norm_num at h100
  · intro h0
    subst h0
    rw [Nat.cast_zero, zero_div] at hv
    rcases div_eq_zero_iff.mp hv with ha | hbz
    · exact_mod_cast ha
    · exfalso
      have hb0 : b = 0 := by exact_mod_cast hbz
      omega

/-- **C3** (corrected).  For amounts denoting exact cent values `k₁/100` and
`k₂/100` (below `2 ^ 40` cents), `format_price` returns exactly `"Free"` when
the minimum is zero regardless of the maximum; otherwise the minimum rendered
as `$` plus the exact two-decimal cent rendering, with the `From` span prefix
exactly when minimum and maximum differ.  The two-decimal fraction always has
exactly two digits, so no floating-point display artifact can appear.  (For
amounts with more than two decimals the binary-float parse can shift the
displayed cents — see the counterexample.) -/
theorem format_price_spec (p : Product) (a₁ b₁ a₂ b₂ k₁ k₂ : ℕ)
    (h₁ : decParts? (min_amount_str p) = some (a₁, b₁))
    (h₂ : decParts? (max_amount_str p) = some (a₂, b₂))
    (hv₁ : (a₁:ℚ)/b₁ = (k₁:ℚ)/100) (hv₂ : (a₂:ℚ)/b₂ = (k₂:ℚ)/100)
    (hk₁ : k₁ < 2^40) (hk₂ : k₂ < 2^40) :
    format_price p = some (
      if k₁ = 0 then "Free"
      else if k₁ ≠ k₂ then
        "<span class=\"from\">From </span>" ++ ("$" ++ fmtCents k₁)
      else "$" ++ fmtCents k₁)
    ∧ (twoDigits (k₁ % 100)).length = 2 := by
  have hb₁ : 0 < b₁ := decParts?_den_pos h₁
  have hb₂ : 0 < b₂ := decParts?_den_pos h₂
  refine ⟨?_, twoDigits_length _ (Nat.mod_lt _ (by norm_num))⟩
  have hpf1 : pyFloat? (min_amount_str p) =
      if a₁ = 0 then some ((0:ℕ), (0:ℤ)) else some (floatBits a₁ b₁) := by
    unfold pyFloat?
    rw [h₁]
  have hpf2 : pyFloat? (max_amount_str p) =
      if a₂ = 0 then some ((0:ℕ), (0:ℤ)) else some (floatBits a₂ b₂) := by
    unfold pyFloat?
    rw [h₂]
  by_cases hk10 : k₁ = 0
  · have ha10 : a₁ = 0 := (decParts?_zero_iff hb₁ hv₁).mpr hk10
    have hpf1x : pyFloat? (min_amount_str p) = some ((0:ℕ), (0:ℤ)) := by
      rw [hpf1, if_pos ha10]
    by_cases ha20 : a₂ = 0
    · have hpf2x : pyFloat? (max_amount_str p) = some ((0:ℕ), (0:ℤ)) := by
        rw [hpf2, if_pos ha20]
      rw [format_price_eval hpf1x hpf2x, if_pos hk10]
      simp
    · have hpf2x : pyFloat? (max_amount_str p) = some (floatBits a₂ b₂) := by
        rw [hpf2, if_neg ha20]
      rw [format_price_eval hpf1x hpf2x, if_pos hk10]
      simp
  · have ha1 : ¬ a₁ = 0 := fun h0 => hk10 ((decParts?_zero_iff hb₁ hv₁).mp h0)
    have hpf1x : pyFloat? (min_amount_str p) = some (floatBits a₁ b₁) := by
      rw [hpf1, if_neg ha1]
    obtain ⟨hc₁, hm₁⟩ := floatBits_cents hb₁ (by omega) hk₁ hv₁
    by_cases hk20 : k₂ = 0
    · have ha20 : a₂ = 0 := (decParts?_zero_iff hb₂ hv₂).mpr hk20
      have hpf2x : pyFloat? (max_amount_str p) = some ((0:ℕ), (0:ℤ)) := by
        rw [hpf2, if_pos ha20]
      have hne : floatBits a₁ b₁ ≠ ((0:ℕ), (0:ℤ)) := by
        intro heq
        apply hm₁
        rw [heq]
      rw [format_price_eval hpf1x hpf2x, if_neg hm₁, if_pos hne, hc₁,
        if_neg hk10, if_pos (show k₁ ≠ k₂ from by omega)]
    · have ha2 : ¬ a₂ = 0 := fun h0 => hk20 ((decParts?_zero_iff hb₂ hv₂).mp h0)
      have hpf2x : pyFloat? (max_amount_str p) = some (floatBits a₂ b₂) := by
        rw [hpf2, if_neg ha2]
      obtain ⟨hc₂, hm₂⟩ := floatBits_cents hb₂ (by omega) hk₂ hv₂
      by_cases hkk : k₁ = k₂
      · have hb₁q : ((b₁:ℚ)) ≠ 0 := by exact_mod_cast hb₁.ne'
        have hb₂q : ((b₂:ℚ)) ≠ 0 := by exact_mod_cast hb₂.ne'
        have hv3 : (a₁:ℚ)/b₁ = (a₂:ℚ)/b₂ := by rw [hv₁, hv₂, hkk]
        have hcross : a₁ * b₂ = a₂ * b₁ := by
          have hq : (a₁:ℚ) * b₂ = (a₂:ℚ) * b₁ := (div_eq_div_iff hb₁q hb₂q).mp hv3
          exact_mod_cast hq
        have hfeq : floatBits a₁ b₁ = floatBits a₂ b₂ :=
          floatBits_congr hb₁ hb₂ hcross
        rw [format_price_eval hpf1x hpf2x, if_neg hm₁,
          if_neg (show ¬ floatBits a₁ b₁ ≠ floatBits a₂ b₂ from by simpa using hfeq),
          hc₁, if_neg hk10, if_neg (show ¬ k₁ ≠ k₂ from by simpa using hkk)]
      · have hne : floatBits a₁ b₁ ≠ floatBits a₂ b₂ := by
          intro heq
          apply hkk
          rw [← hc₁, ← hc₂, heq]
        rw [format_price_eval hpf1x hpf2x, if_neg hm₁, if_pos hne, hc₁,
          if_neg hk10, if_pos hkk]

/-- Witness for C3 at `sampleCustom` (min `19.99`, max `29.99`): the
`From`-prefixed two-decimal display of the minimum. -/
theorem format_price_spec_witness :
    (decParts? (min_amount_str sampleCustom) = some (1999, 100)
      ∧ decParts? (max_amount_str sampleCustom) = some (2999, 100)
      ∧ ((1999:ℕ):ℚ)/((100:ℕ):ℚ) = ((1999:ℕ):ℚ)/100
      ∧ ((2999:ℕ):ℚ)/((100:ℕ):ℚ) = ((2999:ℕ):ℚ)/100
      ∧ (1999:ℕ) < 2^40 ∧ (2999:ℕ) < 2^40)
    ∧ (format_price sampleCustom = some (
        if (1999:ℕ) = 0 then "Free"
        else if (1999:ℕ) ≠ 2999 then
          "<span class=\"from\">From </span>" ++ ("$" ++ fmtCents 1999)
        else "$" ++ fmtCents 1999)
      ∧ (twoDigits ((1999:ℕ) % 100)).length = 2) :=
  ⟨⟨by decide, by decide, by norm_num, by norm_num, by decide, by decide⟩,
    format_price_spec sampleCustom 1999 100 2999 100 1999 2999 (by decide)
      (by decide) (by norm_num) (by norm_num) (by decide) (by decide)⟩

/-- Counterexample for C3 as stated: for the amount `0.155` the binary-float
parse makes `format_price` display `$0.15`, while the decimal-exact rendering
the specification prescribes displays `$0.16` — the displayed amount is not
decimal-accurate for every input amount. -/
theorem format_price_counterexample :
    format_price p155 = some "$0.15"
    ∧ format_price_decimalExact p155 = some "$0.16"
    ∧ format_price p155 ≠ format_price_decimalExact p155 := by
  exact ⟨by decide, by decide, by decide⟩

/-! ## Claim C5: reconciliation idempotence -/

theorem isDirNamed_writePage_map (n content : String) (e : FsEntry) (m : String) :
    isDirNamed m (if isDirNamed n e then FsEntry.dir n (some content) else e) =
      isDirNamed m e := by
  by_cases h : isDirNamed n e = true
  · rw [if_pos h]
    cases e with
    | plainFile f0 => simp [isDirNamed] at h
    | dir m0 c0 =>
      have : m0 = n := by simpa [isDirNamed] using h
      subst this
      rfl
  · rw [if_neg h]

theorem isFileNamed_writePage_map (n content : String) (e : FsEntry) (m : String) :
    isFileNamed m (if isDirNamed n e then FsEntry.dir n (some content) else e) =
      isFileNamed m e := by
  by_cases h : isDirNamed n e = true
  · rw [if_pos h]
    cases e with
    | plainFile f0 => simp [isDirNamed] at h
    | dir m0 c0 => rfl
  · rw [if_neg h]

theorem find?_map_congr {p : FsEntry → Bool} {f : FsEntry → FsEntry}
    (l : List FsEntry) (hpf : ∀ e, p (f e) = p e) :
    (l.map f).find? p = (l.find? p).map f := by
  induction l with
  | nil => rfl
  | cons a l ih =>
    simp only [List.map_cons, List.find?_cons, hpf a]
    cases p a <;> simp [ih]

theorem any_map_congr {p : FsEntry → Bool} {f : FsEntry → FsEntry}
    (l : List FsEntry) (hpf : ∀ e, p (f e) = p e) :
    (l.map f).any p = l.any p := by
  induction l with
  | nil => rfl
  | cons a l ih => simp [hpf a, ih]

theorem find?_filter_congr {p q : FsEntry → Bool} (l : List FsEntry)
    (h : ∀ e, q e = true → p e = false) :
    (l.filter fun e => !q e).find? p = l.find? p := by
  induction l with
  | nil => rfl
  | cons a l ih =>
    by_cases hq : q a = true
    · rw [List.filter_cons_of_neg (by simp [hq]), List.find?_cons, h a hq]
      exact ih
    · rw [List.filter_cons_of_pos (by simp [Bool.not_eq_true'] at hq ⊢; exact hq)]
      rw [List.find?_cons, List.find?_cons]
      cases p a <;> simp [ih]

theorem any_filter_congr {p q : FsEntry → Bool} (l : List FsEntry)
    (h : ∀ e, q e = true → p e = false) :
    (l.filter fun e => !q e).any p = l.any p := by
  induction l with
  | nil => rfl
  | cons a l ih =>
    by_cases hq : q a = true
    · rw [List.filter_cons_of_neg (by simp [hq]), List.any_cons, h a hq, ih]
      simp
    · rw [List.filter_cons_of_pos (by simp [Bool.not_eq_true'] at hq ⊢; exact hq)]
      simp [ih]

theorem writePage_no_file {n content : String} {fs fs' : ShopDir}
    (h : writePage n content fs = some fs') :
    fs.any (isFileNamed n) = false := by
  unfold writePage at h
  by_cases h1 : fs.any (isFileNamed n) = true
  · rw [if_pos h1] at h
    simp at h
  · simpa using h1

theorem writePage_success {n : String} (content : String) {fs : ShopDir}
    (h : fs.any (isFileNamed n) = false) :
    ∃ fs', writePage n content fs = some fs' := by
  by_cases h2 : fs.any (isDirNamed n) = true
  · exact ⟨_, by unfold writePage; rw [if_neg (by simp [h]), if_pos h2]⟩
  · exact ⟨_, by unfold writePage; rw [if_neg (by simp [h]), if_neg h2]⟩

theorem writePage_files {n content : String} {fs fs' : ShopDir}
    (h : writePage n content fs = some fs') (m : String) :
    fs'.any (isFileNamed m) = fs.any (isFileNamed m) := by
  unfold writePage at h
  by_cases h1 : fs.any (isFileNamed n) = true
  · rw [if_pos h1] at h
    simp at h
  · rw [if_neg h1] at h
    by_cases h2 : fs.any (isDirNamed n) = true
    · rw [if_pos h2] at h
      cases h
      exact any_map_congr fs fun e => isFileNamed_writePage_map n content e m
    · rw [if_neg h2] at h
      cases h
      simp [List.any_append, isFileNamed]

theorem writePage_pageOf_same {n content : String} {fs fs' : ShopDir}
    (h : writePage n content fs = some fs') :
    pageOf fs' n = some content := by
  unfold writePage at h
  by_cases h1 : fs.any (isFileNamed n) = true
  · rw [if_pos h1] at h
    simp at h
  · rw [if_neg h1] at h
    by_cases h2 : fs.any (isDirNamed n) = true
    · rw [if_pos h2] at h
      cases h
      unfold pageOf
      rw [find?_map_congr fs fun e => isDirNamed_writePage_map n content e n]
      obtain ⟨e, he, hpe⟩ := List.any_eq_true.mp h2
      cases hf : fs.find? (isDirNamed n) with
      | none =>
        rw [List.find?_eq_none] at hf
        exact absurd hpe (hf e he)
      | some e0 =>
        have hp0 : isDirNamed n e0 = true := List.find?_some hf
        cases e0 with
        | plainFile f0 => simp [isDirNamed] at hp0
        | dir m0 c0 =>
          have : m0 = n := by simpa [isDirNamed] using hp0
          subst this
          simp [isDirNamed]
    · rw [if_neg h2] at h
      cases h
      unfold pageOf
      rw [List.find?_append]
      have hnone : fs.find? (isDirNamed n) = none := by
        rw [List.find?_eq_none]
        intro x hx hpx
        rw [List.any_eq_true] at h2
        push_neg at h2
        exact absurd hpx (by simpa using h2 x hx)
      rw [hnone]
      simp [isDirNamed]

theorem writePage_pageOf_other {n content : String} {fs fs' : ShopDir}
    (h : writePage n content fs = some fs') (m : String) (hm : m ≠ n) :
    pageOf fs' m = pageOf fs m := by
  unfold writePage at h
  by_cases h1 : fs.any (isFileNamed n) = true
  · rw [if_pos h1] at h
    simp at h
  · rw [if_neg h1] at h
    by_cases h2 : fs.any (isDirNamed n) = true
    · rw [if_pos h2] at h
      cases h
      unfold pageOf
      rw [find?_map_congr fs fun e => isDirNamed_writePage_map n content e m]
      cases hf : fs.find? (isDirNamed m) with
      | none => rfl
      | some e0 =>
        have hp0 : isDirNamed m e0 = true := List.find?_some hf
        cases e0 with
        | plainFile f0 => simp [isDirNamed] at hp0
        | dir m0 c0 =>
          have hm0 : m0 = m := by simpa [isDirNamed] using hp0
          subst hm0
          have hmn : (m0 == n) = false := beq_eq_false_iff_ne.mpr hm
          simp [isDirNamed, hmn]
    · rw [if_neg h2] at h
      cases h
      unfold pageOf
      rw [List.find?_append]
      have hn2 : (n == m) = false := by
        simp only [beq_eq_false_iff_ne, ne_eq]
        exact fun hx => hm hx.symm
      cases hf : fs.find? (isDirNamed m) with
      | none => simp [isDirNamed, hn2]
      | some e0 => simp

theorem writePage_stale {H : List String} {n content : String} {fs fs' : ShopDir}
    (h : writePage n content fs = some fs')
    (hfs : ∀ e ∈ fs, isStale H e = false) (hn : H.contains n = true) :
    ∀ e ∈ fs', isStale H e = false := by
  unfold writePage at h
  by_cases h1 : fs.any (isFileNamed n) = true
  · rw [if_pos h1] at h
    simp at h
  · rw [if_neg h1] at h
    by_cases h2 : fs.any (isDirNamed n) = true
    · rw [if_pos h2] at h
      cases h
      intro e' he'
      obtain ⟨e, he, rfl⟩ := List.mem_map.mp he'
      by_cases hd : isDirNamed n e = true
      · rw [if_pos hd]
        simp only [isStale, hn, Bool.not_true]
      · rw [if_neg hd]
        exact hfs e he
    · rw [if_neg h2] at h
      cases h
      intro e' he'
      rcases List.mem_append.mp he' with he | he
      · exact hfs e' he
      · simp only [List.mem_singleton] at he
        subst he
        simp only [isStale, hn, Bool.not_true]

theorem writePhase_nil_eq (render : Product → List Product → String)
    (all : List Product) (fs : ShopDir) :
    writePhase render all [] fs = some (fs, 0) := rfl

theorem writePhase_cons_eq (render : Product → List Product → String)
    (all : List Product) (p : Product) (ps : List Product) (fs : ShopDir) :
    writePhase render all (p :: ps) fs =
      if p.handle.getD "" = "" then writePhase render all ps fs
      else
        match writePage (p.handle.getD "") (render p all) fs with
        | none => none
        | some fs2 => (writePhase render all ps fs2).map fun r => (r.1, r.2 + 1) := rfl

/-- Inversion of one step of the write loop. -/
theorem writePhase_cons_some {render : Product → List Product → String}
    {all : List Product} {p : Product} {ps : List Product} {fs : ShopDir}
    {r : ShopDir × Nat} (h : writePhase render all (p :: ps) fs = some r) :
    (p.handle.getD "" = "" ∧ writePhase render all ps fs = some r)
    ∨ (p.handle.getD "" ≠ "" ∧ ∃ fsm g,
        writePage (p.handle.getD "") (render p all) fs = some fsm
        ∧ writePhase render all ps fsm = some (r.1, g) ∧ r.2 = g + 1) := by
  rw [writePhase_cons_eq] at h
  by_cases hh : p.handle.getD "" = ""
  · rw [if_pos hh] at h
    exact Or.inl ⟨hh, h⟩
  · rw [if_neg hh] at h
    refine Or.inr ⟨hh, ?_⟩
    cases hw : writePage (p.handle.getD "") (render p all) fs with
    | none =>
      rw [hw] at h
      exact Option.noConfusion h
    | some fsm =>
      rw [hw] at h
      have h2 : (writePhase render all ps fsm).map (fun r => (r.1, r.2 + 1)) =
          some r := h
      cases hrec : writePhase render all ps fsm with
      | none =>
        rw [hrec] at h2
        exact Option.noConfusion h2
      | some r0 =>
        rw [hrec] at h2
        simp only [Option.map_some', Option.some.injEq] at h2
        cases h2
        refine ⟨fsm, r0.2, rfl, ?_, rfl⟩
        rw [hrec]

theorem writePhase_files (render : Product → List Product → String)
    (all ps : List Product) : ∀ {fs fs' : ShopDir} {g : Nat},
    writePhase render all ps fs = some (fs', g) →
    ∀ m, fs'.any (isFileNamed m) = fs.any (isFileNamed m) := by
  induction ps with
  | nil =>
    intro fs fs' g h m
    rw [writePhase_nil_eq] at h
    cases h
    rfl
  | cons p ps ih =>
    intro fs fs' g h m
    rcases writePhase_cons_some h with ⟨_, h2⟩ | ⟨_, fsm, g0, hw, hrec, _⟩
    · exact ih h2 m
    · rw [ih hrec m, writePage_files hw m]

theorem writePhase_no_file (render : Product → List Product → String)
    (all ps : List Product) : ∀ {fs fs' : ShopDir} {g : Nat},
    writePhase render all ps fs = some (fs', g) →
    ∀ p ∈ ps, p.handle.getD "" ≠ "" →
    fs.any (isFileNamed (p.handle.getD "")) = false := by
  induction ps with
  | nil => intro fs fs' g h p hp; simp at hp
  | cons p0 ps ih =>
    intro fs fs' g h p hp hne
    rcases writePhase_cons_some h with ⟨hh, h2⟩ | ⟨_, fsm, g0, hw, hrec, _⟩
    · rcases List.mem_cons.mp hp with rfl | hp2
      · exact absurd hh hne
      · exact ih h2 p hp2 hne
    · rcases List.mem_cons.mp hp with rfl | hp2
      · exact writePage_no_file hw
      · rw [← writePage_files hw]
        exact ih hrec p hp2 hne

theorem writePhase_success (render : Product → List Product → String)
    (all ps : List Product) : ∀ {fs : ShopDir},
    (∀ p ∈ ps, p.handle.getD "" ≠ "" →
      fs.any (isFileNamed (p.handle.getD "")) = false) →
    ∃ r, writePhase render all ps fs = some r := by
  induction ps with
  | nil => intro fs _; exact ⟨(fs, 0), rfl⟩
  | cons p ps ih =>
    intro fs hok
    rw [writePhase_cons_eq]
    by_cases hh : p.handle.getD "" = ""
    · rw [if_pos hh]
      exact ih fun q hq => hok q (List.mem_cons_of_mem p hq)
    · rw [if_neg hh]
      obtain ⟨fsm, hw⟩ := writePage_success (render p all)
        (hok p (List.mem_cons_self p ps) hh)
      rw [hw]
      obtain ⟨r, hrec⟩ := @ih fsm fun q hq hqne => by
        rw [writePage_files hw]
        exact hok q (List.mem_cons_of_mem p hq) hqne
      show ∃ r2, (writePhase render all ps fsm).map (fun r => (r.1, r.2 + 1)) = some r2
      rw [hrec]
      exact ⟨(r.1, r.2 + 1), rfl⟩

theorem writePhase_stale (render : Product → List Product → String)
    (all : List Product) {H : List String} (ps : List Product) :
    ∀ {fs fs' : ShopDir} {g : Nat},
    writePhase render all ps fs = some (fs', g) →
    (∀ e ∈ fs, isStale H e = false) →
    (∀ p ∈ ps, p.handle.getD "" ≠ "" → H.contains (p.handle.getD "") = true) →
    ∀ e ∈ fs', isStale H e = false := by
  induction ps with
  | nil =>
    intro fs fs' g h hfs _
    rw [writePhase_nil_eq] at h
    cases h
    exact hfs
  | cons p ps ih =>
    intro fs fs' g h hfs hhand
    rcases writePhase_cons_some h with ⟨_, h2⟩ | ⟨hh, fsm, g0, hw, hrec, _⟩
    · exact ih h2 hfs fun q hq => hhand q (List.mem_cons_of_mem p hq)
    · exact ih hrec
        (writePage_stale hw hfs (hhand p (List.mem_cons_self p ps) hh))
        (fun q hq => hhand q (List.mem_cons_of_mem p hq))

theorem writePhase_pageOf (render : Product → List Product → String)
    (all ps : List Product) : ∀ {fs fs' : ShopDir} {g : Nat},
    writePhase render all ps fs = some (fs', g) → ∀ n,
    pageOf fs' n =
      match lastWrite render all ps n with
      | some c => some c
      | none => pageOf fs n := by
  induction ps with
  | nil =>
    intro fs fs' g h n
    rw [writePhase_nil_eq] at h
    cases h
    rfl
  | cons p ps ih =>
    intro fs fs' g h n
    rcases writePhase_cons_some h with ⟨hh, h2⟩ | ⟨hh, fsm, g0, hw, hrec, _⟩
    · rw [ih h2 n]
      cases hlw : lastWrite render all ps n with
      | some c => simp [lastWrite, hlw]
      | none => simp [lastWrite, hlw, hh]
    · rw [ih hrec n]
      cases hlw : lastWrite render all ps n with
      | some c => simp [lastWrite, hlw]
      | none =>
        simp only [lastWrite, hlw]
        by_cases hn : p.handle.getD "" = n
        · rw [if_pos ⟨hh, hn⟩, ← hn]
          exact writePage_pageOf_same hw
        · rw [if_neg fun hand => hn hand.2]
          exact writePage_pageOf_other hw n fun he => hn he.symm

theorem deletePhase_not_stale (H : List String) (fs : ShopDir) :
    ∀ e ∈ (deletePhase H fs).1, isStale H e = false := by
  intro e he
  have h2 := (List.mem_filter.mp he).2
  simpa [Bool.not_eq_true'] using h2

theorem deletePhase_id {H : List String} {fs : ShopDir}
    (h : ∀ e ∈ fs, isStale H e = false) : deletePhase H fs = (fs, 0) := by
  have h1 : (fs.filter fun e => !isStale H e) = fs :=
    List.filter_eq_self.mpr fun a ha => by simp [h a ha]
  have h2 : fs.filter (isStale H) = [] :=
    List.filter_eq_nil_iff.mpr fun a ha => by simp [h a ha]
  simp only [deletePhase, h1, h2, List.length_nil]

theorem deletePhase_files (H : List String) (fs : ShopDir) (m : String) :
    (deletePhase H fs).1.any (isFileNamed m) = fs.any (isFileNamed m) := by
  apply any_filter_congr
  intro e he
  cases e with
  | plainFile f0 => simp [isStale] at he
  | dir n0 c0 => rfl

theorem deletePhase_pageOf {H : List String} {fs : ShopDir} {n : String}
    (hn : H.contains n = true) :
    pageOf (deletePhase H fs).1 n = pageOf fs n := by
  unfold pageOf
  have hcongr : (fs.filter fun e => !isStale H e).find? (isDirNamed n) =
      fs.find? (isDirNamed n) := by
    apply find?_filter_congr
    intro e he
    cases e with
    | plainFile f0 => simp [isStale] at he
    | dir n0 c0 =>
      cases c0 with
      | none => simp [isStale] at he
      | some c1 =>
        have he2 : H.contains n0 = false := by simpa [isStale] using he
        show (n0 == n) = false
        by_cases hc : n0 = n
        · subst hc
          rw [he2] at hn
          exact Bool.noConfusion hn
        · exact beq_eq_false_iff_ne.mpr hc
  rw [show (deletePhase H fs).1 = fs.filter fun e => !isStale H e from rfl, hcongr]

theorem mem_handlesOf {ps : List Product} {n : String}
    (p : Product) (hp : p ∈ ps) (hh : p.handle.getD "" = n) (hne : n ≠ "") :
    n ∈ handlesOf ps := by
  unfold handlesOf
  exact List.mem_filter.mpr ⟨List.mem_map.mpr ⟨p, hp, hh⟩, by simpa using hne⟩

theorem lastWrite_some_exists (render : Product → List Product → String)
    (all : List Product) : ∀ (ps : List Product) {n c : String},
    lastWrite render all ps n = some c →
    ∃ p ∈ ps, p.handle.getD "" = n ∧ n ≠ "" := by
  intro ps
  induction ps with
  | nil => intro n c h; simp [lastWrite] at h
  | cons p ps ih =>
    intro n c h
    simp only [lastWrite] at h
    cases hlw : lastWrite render all ps n with
    | some c0 =>
      obtain ⟨q, hq, hqh, hqne⟩ := ih hlw
      exact ⟨q, List.mem_cons_of_mem p hq, hqh, hqne⟩
    | none =>
      rw [hlw] at h
      by_cases hcond : p.handle.getD "" ≠ "" ∧ p.handle.getD "" = n
      · exact ⟨p, List.mem_cons_self p ps, hcond.2, hcond.2 ▸ hcond.1⟩
      · rw [if_neg hcond] at h
        exact Option.noConfusion h

/-- **C5** (confirmed).  Reconciliation is idempotent: when a first run from
any file-system state succeeds, a second run against the unchanged catalog
and the state the first run left behind also succeeds, performs zero
directory deletions, and stores exactly the same detail-page content for
every handle.  The statement quantifies over the page renderer, which the
script fixes to the pure `build_product_page_html`. -/
theorem generate_product_pages_idempotent
    (render : Product → List Product → String) (products : List Product)
    (fs0 fs1 : ShopDir) (g1 r1 : Nat)
    (h1 : generate_product_pages render products fs0 = some (fs1, g1, r1)) :
    ∃ fs2 g2, generate_product_pages render products fs1 = some (fs2, g2, 0)
      ∧ ∀ n, pageOf fs2 n = pageOf fs1 n := by
  unfold generate_product_pages at h1
  cases hw1 : writePhase render products products fs0 with
  | none => rw [hw1] at h1; exact Option.noConfusion h1
  | some r =>
    rw [hw1] at h1
    have h2 : some ((deletePhase (handlesOf products) r.1).1, r.2,
        (deletePhase (handlesOf products) r.1).2) = some (fs1, g1, r1) := h1
    simp only [Option.some.injEq, Prod.mk.injEq] at h2
    obtain ⟨hfs1, _, _⟩ := h2
    have hw1' : writePhase render products products fs0 = some (r.1, r.2) := by
      rw [hw1]
    have hstale1 : ∀ e ∈ fs1, isStale (handlesOf products) e = false := by
      rw [← hfs1]
      exact deletePhase_not_stale _ _
    have hfiles1 : ∀ m, fs1.any (isFileNamed m) = fs0.any (isFileNamed m) := by
      intro m
      rw [← hfs1, deletePhase_files]
      exact writePhase_files render products products hw1' m
    have habsent : ∀ p ∈ products, p.handle.getD "" ≠ "" →
        fs1.any (isFileNamed (p.handle.getD "")) = false := by
      intro p hp hne
      rw [hfiles1]
      exact writePhase_no_file render products products hw1' p hp hne
    obtain ⟨r2, hw2⟩ := writePhase_success render products products habsent
    have hw2' : writePhase render products products fs1 = some (r2.1, r2.2) := by
      rw [hw2]
    have hhand : ∀ p ∈ products, p.handle.getD "" ≠ "" →
        (handlesOf products).contains (p.handle.getD "") = true := by
      intro p hp hne
      have : p.handle.getD "" ∈ handlesOf products := mem_handlesOf p hp rfl hne
      exact List.elem_iff.mpr this
    have hstale2 : ∀ e ∈ r2.1, isStale (handlesOf products) e = false :=
      writePhase_stale render products products hw2' hstale1 hhand
    have hdel2 : deletePhase (handlesOf products) r2.1 = (r2.1, 0) :=
      deletePhase_id hstale2
    refine ⟨r2.1, r2.2, ?_, ?_⟩
    · unfold generate_product_pages
      rw [hw2]
      show some ((deletePhase (handlesOf products) r2.1).1, r2.2,
        (deletePhase (handlesOf products) r2.1).2) = some (r2.1, r2.2, 0)
      rw [hdel2]
    · intro n
      rw [writePhase_pageOf render products products hw2' n]
      cases hlw : lastWrite render products products n with
      | none => rfl
      | some c =>
        obtain ⟨q, hq, hqh, hqne⟩ :=
          lastWrite_some_exists render products products hlw
        have hnH : (handlesOf products).contains n = true :=
          List.elem_iff.mpr (mem_handlesOf q hq hqh hqne)
        have hps1 : pageOf fs1 n = pageOf r.1 n := by
          rw [← hfs1]
          exact deletePhase_pageOf hnH
        rw [hps1, writePhase_pageOf render products products hw1' n, hlw]

/-- Witness for C5: one product with handle `premade-set`, starting from an
empty `shop/` directory. -/
theorem generate_product_pages_idempotent_witness :
    generate_product_pages (fun _ _ => "PG") [samplePremade] [] =
      some ([FsEntry.dir "premade-set" (some "PG")], 1, 0)
    ∧ ∃ fs2 g2, generate_product_pages (fun _ _ => "PG") [samplePremade]
        [FsEntry.dir "premade-set" (some "PG")] = some (fs2, g2, 0)
      ∧ ∀ n, pageOf fs2 n = pageOf [FsEntry.dir "premade-set" (some "PG")] n :=
  ⟨by decide,
    generate_product_pages_idempotent (fun _ _ => "PG") [samplePremade] []
      [FsEntry.dir "premade-set" (some "PG")] 1 0 (by decide)⟩

end SyncProducts
